import Mathlib

/-!
Metadata container of `maurofran/kit` (package `metadata`).

A shallow embedding of `metadata/metadata.go`.

Go maps and `*Container` values are references, and several operations of the
package are specified by *which* reference they return, so the embedding keeps an
explicit heap:

* a map object is an association list with pairwise distinct keys; the order of
  the list stands for one enumeration order of `range`;
* a map reference is `none` (the nil map) or `some a`, the address of a map object;
* a `*Container` is the address of a container object, whose single field `data`
  is a map reference;
* `interface{}` is `Value α = Option α`, with `none` the nil interface value;
* a `Supplier` acts on an outside world `W`; the heap counts its invocations.

Reading a nil map behaves like reading an empty map, writing to it is a fault.
-/

namespace metadata

/-- Run-time faults of the embedded code. -/
inductive Fault where
  | nilMapWrite
  | invalidAddress
deriving DecidableEq, Repr

/-- Go `interface{}`: `none` is the nil interface value. -/
abbrev Value (α : Type) := Option α

/-- A map object `map[string]interface{}`. -/
abbrev GoMap (α : Type) := List (String × Value α)

namespace GoMap

variable {α : Type}

/-- The comma-ok read `val, ok := m[key]`; a missing key reads as `(nil, false)`. -/
def index : GoMap α → String → Value α × Bool
  | [], _ => (none, false)
  | (k, v) :: m, key => if k = key then (v, true) else index m key

/-- The assignment `m[key] = value`. -/
def assign : GoMap α → String → Value α → GoMap α
  | [], key, value => [(key, value)]
  | (k, v) :: m, key, value =>
    if k = key then (k, value) :: m else (k, v) :: assign m key value

/-- The builtin `delete(m, key)`. -/
def remove : GoMap α → String → GoMap α
  | [], _ => []
  | (k, v) :: m, key => if k = key then remove m key else (k, v) :: remove m key

/-- The keys of a map object, in enumeration order. -/
def keys (m : GoMap α) : List String := m.map Prod.fst

end GoMap

/-- The struct `Container`: its field `data` is a map reference. -/
structure Container where
  data : Option Nat
deriving DecidableEq, Repr

/-- The heap: map objects and container objects by address, the world the
suppliers act on, and the number of supplier invocations so far. -/
structure Heap (α W : Type) where
  maps : List (GoMap α)
  objs : List Container
  world : W
  calls : Nat

/-- Go `Supplier`: `func() interface{}`, possibly with an effect on the world. -/
abbrev Supplier (α W : Type) := W → Value α × W

namespace Heap

variable {α W : Type}

/-- Dereference of a `*Container`. -/
def container (h : Heap α W) (c : Nat) : Except Fault Container :=
  match h.objs[c]? with
  | some o => .ok o
  | none => .error .invalidAddress

/-- The map object a reference is read through; the nil map reads as empty. -/
def mapAt (h : Heap α W) (r : Option Nat) : Except Fault (GoMap α) :=
  match r with
  | none => .ok []
  | some a =>
    match h.maps[a]? with
    | some m => .ok m
    | none => .error .invalidAddress

/-- The statement `r[key] = value`; faults on the nil map. -/
def store (h : Heap α W) (r : Option Nat) (key : String) (value : Value α) :
    Except Fault (Heap α W) :=
  match r with
  | none => .error .nilMapWrite
  | some a =>
    match h.maps[a]? with
    | some m => .ok { h with maps := h.maps.set a (m.assign key value) }
    | none => .error .invalidAddress

/-- The statement `delete(r, key)`; a no-op on the nil map. -/
def erase (h : Heap α W) (r : Option Nat) (key : String) : Except Fault (Heap α W) :=
  match r with
  | none => .ok h
  | some a =>
    match h.maps[a]? with
    | some m => .ok { h with maps := h.maps.set a (m.remove key) }
    | none => .error .invalidAddress

/-- The expression `make(map[string]interface{})`: a fresh empty map object. -/
def makeMap (h : Heap α W) : Nat × Heap α W :=
  (h.maps.length, { h with maps := h.maps ++ [[]] })

/-- Allocation of a container object (`new(Container)`, `&Container{...}`). -/
def alloc (h : Heap α W) (o : Container) : Nat × Heap α W :=
  (h.objs.length, { h with objs := h.objs ++ [o] })

/-- A call `value()` of a supplier. -/
def invoke (h : Heap α W) (value : Supplier α W) : Value α × Heap α W :=
  ((value h.world).1, { h with world := (value h.world).2, calls := h.calls + 1 })

/-- The heap after the allocation of a fresh map object `m` and of a container
object whose `data` refers to it. -/
def push (h : Heap α W) (m : GoMap α) : Heap α W :=
  { h with maps := h.maps ++ [m], objs := h.objs ++ [⟨some h.maps.length⟩] }

/-- The contents of the container at address `c`: the map object behind `c.data`. -/
def contents (h : Heap α W) (c : Nat) : Except Fault (GoMap α) :=
  match h.container c with
  | .ok o => h.mapAt o.data
  | .error e => .error e

/-- Frame relation: every container of `h` has the same contents in `h'`. -/
def Preserved (h h' : Heap α W) : Prop :=
  ∀ c m, h.contents c = .ok m → h'.contents c = .ok m

/-- Heap invariant: map objects have pairwise distinct keys and every container's
`data` is nil or the address of a map object. -/
def WF (h : Heap α W) : Prop :=
  (∀ m ∈ h.maps, m.keys.Nodup) ∧
  (∀ o ∈ h.objs, ∀ a ∈ o.data, a < h.maps.length)

end Heap

variable {α W : Type}

/-- Source: `func (c *Container) Empty() bool`. -/
def Container.Empty (c : Nat) (h : Heap α W) : Except Fault Bool := do
  let o ← h.container c
  let m ← h.mapAt o.data
  pure (m.length == 0)

/-- Source: `func (c *Container) Get(key string) (interface{}, bool)`. -/
def Container.Get (c : Nat) (key : String) (h : Heap α W) :
    Except Fault (Value α × Bool) := do
  if (← Container.Empty c h) then
    return (none, false)
  let o ← h.container c
  let m ← h.mapAt o.data
  pure (m.index key)

/-- Source: `func (c *Container) Keys() []string`. -/
def Container.Keys (c : Nat) (h : Heap α W) : Except Fault (List String) := do
  let keys : List String := []
  if (← Container.Empty c h) then
    return keys
  let o ← h.container c
  let m ← h.mapAt o.data
  pure (m.foldl (fun keys e => keys ++ [e.1]) keys)

/-- Source: `func Empty() *Container`: `new(Container)`, whose `data` is the nil map. -/
def Empty (h : Heap α W) : Nat × Heap α W :=
  h.alloc ⟨none⟩

/-- Source: `func From(source map[string]interface{}) *Container`. -/
def From (source : Option Nat) (h : Heap α W) : Except Fault (Nat × Heap α W) := do
  let (a, h1) := h.makeMap
  let (c, h2) := h1.alloc ⟨some a⟩
  let src ← h2.mapAt source
  let h3 ← src.foldlM (fun hh e => do
    let o ← hh.container c
    hh.store o.data e.1 e.2) h2
  pure (c, h3)

/-- Source: `func With(key string, value interface{}) *Container`. -/
def With (key : String) (value : Value α) (h : Heap α W) :
    Except Fault (Nat × Heap α W) := do
  let (a, h1) := h.makeMap
  let (c, h2) := h1.alloc ⟨some a⟩
  let o ← h2.container c
  let h3 ← h2.store o.data key value
  pure (c, h3)

/-- Source: `func (c *Container) And(key string, value interface{}) *Container`. -/
def Container.And (c : Nat) (key : String) (value : Value α) (h : Heap α W) :
    Except Fault (Nat × Heap α W) := do
  let o ← h.container c
  let (res, h1) ← From o.data h
  let r ← h1.container res
  let h2 ← h1.store r.data key value
  pure (res, h2)

/-- Source: `func (c *Container) AndIfNotPresent(key string, value Supplier) *Container`. -/
def Container.AndIfNotPresent (c : Nat) (key : String) (value : Supplier α W)
    (h : Heap α W) : Except Fault (Nat × Heap α W) := do
  if (← Container.Empty c h) then
    let (v, h1) := h.invoke value
    return (← Container.And c key v h1)
  let o ← h.container c
  let m ← h.mapAt o.data
  if !(m.index key).2 then
    let (v, h1) := h.invoke value
    return (← Container.And c key v h1)
  pure (c, h)

/-- Source: `func (c *Container) MergedWith(entries map[string]interface{}) *Container`. -/
def Container.MergedWith (c : Nat) (entries : Option Nat) (h : Heap α W) :
    Except Fault (Nat × Heap α W) := do
  let es ← h.mapAt entries
  if es.length == 0 then
    return (c, h)
  if (← Container.Empty c h) then
    return (← From entries h)
  let o ← h.container c
  let (res, h1) ← From o.data h
  let es1 ← h1.mapAt entries
  let h2 ← es1.foldlM (fun hh e => do
    let r ← hh.container res
    hh.store r.data e.1 e.2) h1
  pure (res, h2)

/-- Source: `func (c *Container) WithoutKeys(keys ...string) *Container`. -/
def Container.WithoutKeys (c : Nat) (keys : List String) (h : Heap α W) :
    Except Fault (Nat × Heap α W) := do
  if keys.length == 0 then
    return (c, h)
  if (← Container.Empty c h) then
    return (c, h)
  let o ← h.container c
  let (res, h1) ← From o.data h
  let h2 ← keys.foldlM (fun hh key => do
    let r ← hh.container res
    hh.erase r.data key) h1
  pure (res, h2)

/-- Source: `func (c *Container) WithKeys(keys ...string) *Container`. -/
def Container.WithKeys (c : Nat) (keys : List String) (h : Heap α W) :
    Except Fault (Nat × Heap α W) := do
  if keys.length == 0 then
    return (metadata.Empty h)
  if (← Container.Empty c h) then
    return (c, h)
  let (a, h1) := h.makeMap
  let (res, h2) := h1.alloc ⟨some a⟩
  let h3 ← keys.foldlM (fun hh key => do
    let r ← hh.container res
    let o ← hh.container c
    let m ← hh.mapAt o.data
    hh.store r.data key (m.index key).1) h2
  pure (res, h3)

/-- The receiver `c` reads the same in `h'` as in `h`: same `Keys()`, same `Get(k)`
for every key. -/
def Unchanged (c : Nat) (h h' : Heap α W) : Prop :=
  Container.Keys c h' = Container.Keys c h ∧
  ∀ k, Container.Get c k h' = Container.Get c k h

/-- The call `res` returns without a fault, and it returns a container of a heap
that is again well formed and has kept every address of `h`. -/
def Returns (h : Heap α W) (res : Except Fault (Nat × Heap α W)) : Prop :=
  ∃ r h', res = .ok (r, h') ∧ h'.WF ∧ r < h'.objs.length ∧
    h.objs.length ≤ h'.objs.length ∧ h.maps.length ≤ h'.maps.length

/-! ## The data of the tests -/

/-- The values stored by the tests: strings and integers. -/
abbrev TestValue := String ⊕ Int

/-- The map `{"key1": "value1", "key2": 2}` of `aContainer()`. -/
def testSource : GoMap TestValue :=
  [("key1", some (.inl "value1")), ("key2", some (.inr 2))]

/-- The map `{"key3": "value3", "key4": "value4"}` merged in by the tests. -/
def testEntries : GoMap TestValue :=
  [("key3", some (.inl "value3")), ("key4", some (.inl "value4"))]

/-- A heap with the maps of the caller at addresses 0 (`testSource`), 2 (an empty,
non-nil map) and 3 (`testEntries`), with `aContainer()` at address 0, backed by
its own copy of `testSource` at map address 1, and with `anEmptyContainer()`
at address 1. The world is the flag `invoked` of the tests. -/
def testHeap : Heap TestValue Bool :=
  { maps := [testSource, testSource, [], testEntries]
    objs := [⟨some 1⟩, ⟨none⟩]
    world := false
    calls := 0 }

/-- A heap that holds `testSource` at map address 0 and `aContainer()`, backed by
its own copy at map address 1, at address 0; it holds no empty container. -/
def aContainerHeap : Heap TestValue Bool :=
  { maps := [testSource, testSource]
    objs := [⟨some 1⟩]
    world := false
    calls := 0 }

/-- The supplier of the tests: sets `invoked` and returns `"aValue"`. -/
def testSupplier : Supplier TestValue Bool :=
  fun _ => (some (.inl "aValue"), true)

/-! ## Slices with their nil-ness -/

/-- A Go slice `[]string` together with its nil-ness: `none` is the nil slice,
`some []` an empty slice that is not nil. -/
abbrev GoSlice := Option (List String)

/-- The builtin `append(s, x)`: its result is never the nil slice. -/
def GoSlice.append : GoSlice → String → GoSlice
  | none, x => some [x]
  | some l, x => some (l ++ [x])

/-- The method `Keys` once more, keeping the nil-ness of the slice it returns:
`make([]string, 0)` is `some []`. -/
def Container.KeysSlice (c : Nat) (h : Heap α W) : Except Fault GoSlice := do
  let keys : GoSlice := some []
  if (← Container.Empty c h) then
    return keys
  let o ← h.container c
  let m ← h.mapAt o.data
  pure (m.foldl (fun keys e => keys.append e.1) keys)

/-! ## The scenario `From(...).And("key3", "value3").And("key4", 4)` -/

/-- The map `{"key1": "value1"}`. -/
def scenarioSource : GoMap TestValue :=
  [("key1", some (.inl "value1"))]

/-- A heap that holds `scenarioSource` at address 0 and no container yet. -/
def scenarioHeap : Heap TestValue Bool :=
  { maps := [scenarioSource]
    objs := []
    world := false
    calls := 0 }

/-- The chain `c.And(k1, v1).And(k2, v2)...And(kn, vn)` for the entries
`(k1, v1), ..., (kn, vn)`, in the order of the list. -/
def andChain (c : Nat) (es : GoMap α) (h : Heap α W) : Except Fault (Nat × Heap α W) :=
  es.foldlM (fun (p : Nat × Heap α W) e => Container.And p.1 e.1 e.2 p.2) (c, h)

/-- The heap `h` in which the map object at address `a` enumerates its entries
in the order of `p`. -/
def Heap.reorder (h : Heap α W) (a : Nat) (p : GoMap α) : Heap α W :=
  { h with maps := h.maps.set a p }

/-- The expression `From(source).And("key3", "value3").And("key4", 4)`. -/
def scenario (source : Option Nat) (h : Heap TestValue Bool) :
    Except Fault (Nat × Heap TestValue Bool) := do
  let (c0, h0) ← From source h
  let (c1, h1) ← Container.And c0 "key3" (some (.inl "value3")) h0
  Container.And c1 "key4" (some (.inr 4)) h1

end metadata

/-!
Package `domain` (`domain/aggregateRoot.go`). An aggregate root is used through
a pointer and updated in place; the embedding passes the struct along. A slice
of events is a list, the nil slice being the empty list.
-/

namespace domain

variable {E : Type}

/-- The struct `AggregateRoot`. -/
structure AggregateRoot (E : Type) where
  events : List E

/-- The builtin `copy(dst, src)`: the first `min(len(dst), len(src))` elements of
`src` overwrite those of `dst`; the value is `dst` after the call. -/
def copy (dst src : List E) : List E :=
  src.take (min dst.length src.length) ++ dst.drop (min dst.length src.length)

/-- Source: `func (ar *AggregateRoot) RegisterEvent(event Event) Event`; the
second component is the receiver after the call. -/
def AggregateRoot.RegisterEvent (ar : AggregateRoot E) (event : E) :
    E × AggregateRoot E :=
  let events := ar.events ++ [event]
  (event, { ar with events := events })

/-- Source: `func (ar *AggregateRoot) AndEvent(event Event) *AggregateRoot`. -/
def AggregateRoot.AndEvent (ar : AggregateRoot E) (event : E) : AggregateRoot E :=
  (ar.RegisterEvent event).2

/-- Source: `func (ar *AggregateRoot) AndEventsFrom(other *AggregateRoot) *AggregateRoot`. -/
def AggregateRoot.AndEventsFrom (ar other : AggregateRoot E) : AggregateRoot E :=
  let events := ar.events ++ other.events
  { ar with events := events }

/-- Source: `func (ar *AggregateRoot) DomainEvents() []Event`. -/
def AggregateRoot.DomainEvents (ar : AggregateRoot E) : List E :=
  let events : List E := []
  copy events ar.events

/-- Source: `func (ar *AggregateRoot) ClearDomainEvents()`. -/
def AggregateRoot.ClearDomainEvents (ar : AggregateRoot E) : AggregateRoot E :=
  { ar with events := [] }

end domain

/-!
Package `assert` (`assert/assert.go`). A value of the interface `error` is nil or
a value of a dynamic type: `argumentError`, `stateError`, or a type of another
package, of which only the message is kept.
-/

namespace assert

/-- The struct `argumentError`. -/
structure argumentError where
  message : String
deriving DecidableEq, Repr

/-- The struct `stateError`. -/
structure stateError where
  message : String
deriving DecidableEq, Repr

/-- A value of the interface `error`. -/
inductive GoError where
  | nil
  | argument (err : argumentError)
  | state (err : stateError)
  | foreign (message : String)
deriving DecidableEq, Repr

/-- Source: `func (err argumentError) Error() string`. -/
def argumentError.Error (err : argumentError) : String :=
  err.message

/-- Source: `func (err stateError) Error() string`. -/
def stateError.Error (err : stateError) : String :=
  err.message

/-- The call `e.Error()` on a value of the interface `error`, dispatched on the
dynamic type; there is no result on the nil interface value. -/
def GoError.Error : GoError → Option String
  | .nil => none
  | .argument err => some err.Error
  | .state err => some err.Error
  | .foreign message => some message

/-- Source: `func IsArgumentError(err error) bool`, the type assertion
`err.(argumentError)`. -/
def IsArgumentError (err : GoError) : Bool :=
  match err with
  | .argument _ => true
  | _ => false

/-- Source: `func IsStateError(err error) bool`, the type assertion
`err.(stateError)`. -/
def IsStateError (err : GoError) : Bool :=
  match err with
  | .state _ => true
  | _ => false

/-- Source: `func Condition(condition bool, message string) error`. -/
def Condition (condition : Bool) (message : String) : GoError :=
  if !condition then
    .argument ⟨message⟩
  else
    .nil

/-- Source: `func State(state bool, message string) error`. -/
def State (state : Bool) (message : String) : GoError :=
  if !state then
    .state ⟨message⟩
  else
    .nil

/-- Source: `func StateNot(state bool, message string) error`. -/
def StateNot (state : Bool) (message : String) : GoError :=
  if state then
    .state ⟨message⟩
  else
    .nil

/-! ### Strings and formatting

A Go string is taken to be valid UTF-8, that is a sequence of code points; `len`
counts the bytes of its encoding. `strings.TrimSpace`, `unicode.IsSpace` and the
verbs `%s` and `%d` of `fmt.Sprintf` belong to the Go standard library and are
written out here as that library documents them. A Go `int` is an integer. -/

/-- The number of bytes of the UTF-8 encoding of a code point. -/
def runeLen (c : Char) : Nat :=
  if c.toNat < 0x80 then 1
  else if c.toNat < 0x800 then 2
  else if c.toNat < 0x10000 then 3
  else 4

/-- The builtin `len(s)` on a string: its length in bytes. -/
def len (s : String) : Nat :=
  (s.data.map runeLen).sum

/-- The number of characters (code points) of a string, which is what the messages
of `MinLength`, `MaxLength` and `LengthBetween` speak of. -/
def charCount (s : String) : Nat :=
  s.data.length

/-- The predicate `unicode.IsSpace`: tab, line feed, vertical tab, form feed,
carriage return, space, U+0085, U+00A0 and the other code points with the
property White_Space. -/
def IsSpace (c : Char) : Bool :=
  let n := c.toNat
  n == 0x09 || n == 0x0A || n == 0x0B || n == 0x0C || n == 0x0D || n == 0x20 ||
  n == 0x85 || n == 0xA0 || n == 0x1680 || (0x2000 ≤ n && n ≤ 0x200A) ||
  n == 0x2028 || n == 0x2029 || n == 0x202F || n == 0x205F || n == 0x3000

/-- The function `strings.TrimSpace`: the string without its leading and trailing
white space. -/
def TrimSpace (s : String) : String :=
  ⟨((s.data.dropWhile IsSpace).reverse.dropWhile IsSpace).reverse⟩

/-- The verb `%d` on an `int`: decimal digits, with a minus sign when negative. -/
def formatInt (n : Int) : String :=
  toString n

/-- Source: `func MinLength(value string, minLength int, argName string) error`. -/
def MinLength (value : String) (minLength : Int) (argName : String) : GoError :=
  let length : Int := len (TrimSpace value)
  if length < minLength then
    .argument ⟨argName ++ " must be " ++ formatInt minLength ++ " characters or more"⟩
  else
    .nil

/-- Source: `func MaxLength(value string, maxLength int, argName string) error`. -/
def MaxLength (value : String) (maxLength : Int) (argName : String) : GoError :=
  let length : Int := len (TrimSpace value)
  if length > maxLength then
    .argument ⟨argName ++ " must be " ++ formatInt maxLength ++ " characters or less"⟩
  else
    .nil

/-- Source: `func LengthBetween(value string, minLength, maxLength int, argName string) error`. -/
def LengthBetween (value : String) (minLength maxLength : Int) (argName : String) :
    GoError :=
  let length : Int := len (TrimSpace value)
  if length < minLength || length > maxLength then
    .argument ⟨argName ++ " must be between " ++ formatInt minLength ++ " and " ++
      formatInt maxLength ++ " characters"⟩
  else
    .nil

/-- Source: `func IntMin(value, min int, argName string) error`. -/
def IntMin (value min : Int) (argName : String) : GoError :=
  if value < min then
    .argument ⟨argName ++ " must greater or equal than " ++ formatInt min⟩
  else
    .nil

/-- Source: `func IntMax(value, max int, argName string) error`. -/
def IntMax (value max : Int) (argName : String) : GoError :=
  if value > max then
    .argument ⟨argName ++ " must lower or equal than " ++ formatInt max⟩
  else
    .nil

/-- Source: `func IntRange(value, min, max int, argName string) error`. -/
def IntRange (value min max : Int) (argName : String) : GoError :=
  if value < min || value > max then
    .argument ⟨argName ++ " must be between " ++ formatInt min ++ " and " ++
      formatInt max⟩
  else
    .nil

/-- The format that the doc comment of `IntMin` documents for its message:
`<argName> must be greater or equal than <min>`. -/
def IntMin.documentedMessage (min : Int) (argName : String) : String :=
  argName ++ " must be greater or equal than " ++ formatInt min

end assert

namespace metadata

/-! ## Map objects -/

namespace GoMap

variable {α : Type}

theorem index_assign_same (m : GoMap α) (k : String) (v : Value α) :
    (m.assign k v).index k = (v, true) := by
  induction m with
  | nil => simp [assign, index]
  | cons e m ih =>
    obtain ⟨k0, v0⟩ := e
    by_cases hk : k0 = k
    · simp [assign, index, hk]
    · simp [assign, index, hk, ih]

theorem index_assign_ne (m : GoMap α) {k k' : String} (v : Value α) (hne : k' ≠ k) :
    (m.assign k v).index k' = m.index k' := by
  induction m with
  | nil => simp [assign, index, Ne.symm hne]
  | cons e m ih =>
    obtain ⟨k0, v0⟩ := e
    by_cases hk : k0 = k
    · subst hk
      simp [assign, index, Ne.symm hne]
    · by_cases hk' : k0 = k'
      · subst hk'
        simp [assign, index, hk]
      · simp [assign, index, hk, hk', ih]

theorem index_snd_iff (m : GoMap α) (k : String) :
    (m.index k).2 = true ↔ k ∈ m.keys := by
  induction m with
  | nil => simp [index, keys]
  | cons e m ih =>
    obtain ⟨k0, v0⟩ := e
    by_cases hk : k0 = k
    · simp [index, keys, hk]
    · have hk' : ¬ k = k0 := fun h => hk h.symm
      simpa [index, keys, hk, hk'] using ih

theorem index_of_not_mem (m : GoMap α) (k : String) (hk : k ∉ m.keys) :
    m.index k = (none, false) := by
  induction m with
  | nil => simp [index]
  | cons e m ih =>
    obtain ⟨k0, v0⟩ := e
    simp only [keys, List.map_cons, List.mem_cons, not_or] at hk
    have h0 : ¬ k0 = k := fun h => hk.1 h.symm
    simpa [index, h0] using ih hk.2

theorem index_remove_same (m : GoMap α) (k : String) :
    (m.remove k).index k = (none, false) := by
  induction m with
  | nil => simp [remove, index]
  | cons e m ih =>
    obtain ⟨k0, v0⟩ := e
    by_cases hk : k0 = k
    · simp [remove, hk, ih]
    · simp [remove, index, hk, ih]

theorem index_remove_ne (m : GoMap α) {k k' : String} (hne : k' ≠ k) :
    (m.remove k).index k' = m.index k' := by
  induction m with
  | nil => simp [remove, index]
  | cons e m ih =>
    obtain ⟨k0, v0⟩ := e
    by_cases hk : k0 = k
    · subst hk
      simp [remove, index, Ne.symm hne, ih]
    · by_cases hk' : k0 = k'
      · subst hk'
        simp [remove, index, hk]
      · simp [remove, index, hk, hk', ih]

theorem keys_assign_of_mem (m : GoMap α) (k : String) (v : Value α) (hk : k ∈ m.keys) :
    (m.assign k v).keys = m.keys := by
  induction m with
  | nil => simp [keys] at hk
  | cons e m ih =>
    obtain ⟨k0, v0⟩ := e
    by_cases h0 : k0 = k
    · simp [assign, keys, h0]
    · have h1 : ¬ k = k0 := fun h => h0 h.symm
      simp only [keys, List.map_cons, List.mem_cons, h1, false_or] at hk
      simpa [assign, keys, h0] using ih hk

theorem keys_assign_of_not_mem (m : GoMap α) (k : String) (v : Value α)
    (hk : k ∉ m.keys) : (m.assign k v).keys = m.keys ++ [k] := by
  induction m with
  | nil => simp [assign, keys]
  | cons e m ih =>
    obtain ⟨k0, v0⟩ := e
    simp only [keys, List.map_cons, List.mem_cons, not_or] at hk
    have h0 : ¬ k0 = k := fun h => hk.1 h.symm
    simpa [assign, keys, h0] using ih hk.2

theorem assign_of_not_mem (m : GoMap α) (k : String) (v : Value α)
    (hk : k ∉ m.keys) : m.assign k v = m ++ [(k, v)] := by
  induction m with
  | nil => simp [assign]
  | cons e m ih =>
    obtain ⟨k0, v0⟩ := e
    simp only [keys, List.map_cons, List.mem_cons, not_or] at hk
    have h0 : ¬ k0 = k := fun h => hk.1 h.symm
    simpa [assign, h0] using ih hk.2

theorem mem_keys_assign (m : GoMap α) (k k' : String) (v : Value α) :
    k' ∈ (m.assign k v).keys ↔ k' = k ∨ k' ∈ m.keys := by
  by_cases hk : k ∈ m.keys
  · rw [keys_assign_of_mem m k v hk]
    constructor
    · exact Or.inr
    · rintro (h | h)
      · exact h ▸ hk
      · exact h
  · rw [keys_assign_of_not_mem m k v hk]
    simp [or_comm]

theorem nodup_keys_assign (m : GoMap α) (k : String) (v : Value α)
    (hm : m.keys.Nodup) : (m.assign k v).keys.Nodup := by
  by_cases hk : k ∈ m.keys
  · rw [keys_assign_of_mem m k v hk]
    exact hm
  · rw [keys_assign_of_not_mem m k v hk]
    exact List.Nodup.append hm (List.nodup_singleton k) (by simpa using hk)

theorem keys_remove (m : GoMap α) (k : String) :
    (m.remove k).keys = m.keys.filter (fun k' => decide (k' ≠ k)) := by
  induction m with
  | nil => simp [remove, keys]
  | cons e m ih =>
    obtain ⟨k0, v0⟩ := e
    by_cases h0 : k0 = k
    · simpa [remove, keys, h0] using ih
    · simpa [remove, keys, h0] using ih

theorem nodup_keys_remove (m : GoMap α) (k : String) (hm : m.keys.Nodup) :
    (m.remove k).keys.Nodup := by
  rw [keys_remove]
  exact hm.filter _

/-- Copying the entries of a map object one by one into an accumulator that
shares no key with it appends them in order. -/
theorem foldl_assign_eq_append (src : GoMap α) :
    ∀ acc : GoMap α, src.keys.Nodup → (∀ k ∈ src.keys, k ∉ acc.keys) →
      src.foldl (fun (acc : GoMap α) e => acc.assign e.1 e.2) acc = acc ++ src := by
  induction src with
  | nil => intro acc _ _; simp
  | cons e src ih =>
    intro acc hnd hdisj
    simp only [keys, List.map_cons, List.nodup_cons] at hnd
    have he : e.1 ∉ acc.keys := hdisj e.1 (by simp [keys])
    rw [List.foldl_cons, assign_of_not_mem acc e.1 e.2 he]
    rw [ih (acc ++ [(e.1, e.2)]) hnd.2]
    · simp
    · intro k hk hmem
      simp only [keys, List.map_append, List.map_cons, List.map_nil, List.mem_append,
        List.mem_singleton] at hmem
      rcases hmem with hmem | hmem
      · exact hdisj k (by simp [keys]; exact Or.inr (by simpa [keys] using hk)) hmem
      · exact hnd.1 (hmem ▸ hk)

theorem foldl_assign_nil (src : GoMap α) (hnd : src.keys.Nodup) :
    src.foldl (fun (acc : GoMap α) e => acc.assign e.1 e.2) [] = src := by
  simpa using foldl_assign_eq_append src [] hnd (by simp [keys])

theorem foldl_append_keys (m : GoMap α) :
    ∀ acc : List String, m.foldl (fun keys e => keys ++ [e.1]) acc = acc ++ m.keys := by
  induction m with
  | nil => intro acc; simp [keys]
  | cons e m ih => intro acc; simp [keys, ih]

end GoMap

end metadata

namespace metadata

/-! ## The heap -/

namespace Heap

variable {α W : Type}

theorem container_push_new (h : Heap α W) (m : GoMap α) :
    (h.push m).container h.objs.length = .ok ⟨some h.maps.length⟩ := by
  simp [container, push]

theorem mapAt_push_new (h : Heap α W) (m : GoMap α) :
    (h.push m).mapAt (some h.maps.length) = .ok m := by
  simp [mapAt, push]

theorem store_push_new (h : Heap α W) (m : GoMap α) (k : String) (v : Value α) :
    (h.push m).store (some h.maps.length) k v = .ok (h.push (m.assign k v)) := by
  simp [store, push]

theorem erase_push_new (h : Heap α W) (m : GoMap α) (k : String) :
    (h.push m).erase (some h.maps.length) k = .ok (h.push (m.remove k)) := by
  simp [erase, push]

theorem container_push_old {h : Heap α W} {c : Nat} {o : Container} (m : GoMap α)
    (hc : h.container c = .ok o) : (h.push m).container c = .ok o := by
  unfold container at hc ⊢
  cases ho : h.objs[c]? with
  | none => simp [ho] at hc
  | some o' =>
    have hlt : c < h.objs.length := (List.getElem?_eq_some_iff.mp ho).1
    simp only [ho] at hc
    simp [push, List.getElem?_append_left hlt, ho, hc]

theorem mapAt_push_old {h : Heap α W} {r : Option Nat} {m' : GoMap α} (m : GoMap α)
    (hr : h.mapAt r = .ok m') : (h.push m).mapAt r = .ok m' := by
  cases r with
  | none => simpa [mapAt] using hr
  | some a =>
    unfold mapAt at hr ⊢
    cases ha : h.maps[a]? with
    | none => simp [ha] at hr
    | some m0 =>
      have hlt : a < h.maps.length := (List.getElem?_eq_some_iff.mp ha).1
      simp only [ha] at hr
      simp [push, List.getElem?_append_left hlt, ha, hr]

theorem contents_push_new (h : Heap α W) (m : GoMap α) :
    (h.push m).contents h.objs.length = .ok m := by
  simp [contents, container_push_new, mapAt_push_new]

theorem contents_push_old {h : Heap α W} {c : Nat} {m' : GoMap α} (m : GoMap α)
    (hc : h.contents c = .ok m') : (h.push m).contents c = .ok m' := by
  unfold contents at hc ⊢
  cases ho : h.container c with
  | error e => simp [ho] at hc
  | ok o =>
    simp only [ho] at hc
    simp [container_push_old m ho, mapAt_push_old m hc]

/-- A loop whose body rewrites only the fresh map object of `h.push m`. -/
theorem foldlM_push {β : Type} (h : Heap α W)
    (step : Heap α W → β → Except Fault (Heap α W)) (f : GoMap α → β → GoMap α)
    (hstep : ∀ m x, step (h.push m) x = .ok (h.push (f m x))) :
    ∀ (xs : List β) (m : GoMap α),
      xs.foldlM step (h.push m) = .ok (h.push (xs.foldl f m)) := by
  intro xs
  induction xs with
  | nil => intro m; rfl
  | cons x xs ih =>
    intro m
    rw [List.foldlM_cons, hstep]
    exact ih (f m x)

/-- Every container of a well-formed heap has contents, with distinct keys. -/
theorem WF.contents_ok {h : Heap α W} (hwf : h.WF) {c : Nat} (hc : c < h.objs.length) :
    ∃ m, h.contents c = .ok m ∧ m.keys.Nodup := by
  obtain ⟨hm, ho⟩ := hwf
  have hget : h.objs[c]? = some h.objs[c] := List.getElem?_eq_getElem hc
  have hmem : h.objs[c] ∈ h.objs := List.getElem_mem hc
  cases hd : h.objs[c].data with
  | none =>
    refine ⟨[], ?_, by simp [GoMap.keys]⟩
    simp [contents, container, hget, mapAt, hd]
  | some a =>
    have ha : a < h.maps.length := ho _ hmem a (by simp [hd])
    refine ⟨h.maps[a], ?_, hm _ (List.getElem_mem ha)⟩
    simp [contents, container, hget, mapAt, hd, List.getElem?_eq_getElem ha]

end Heap

end metadata

namespace metadata

/-! ## The operations, in terms of contents -/

variable {α W : Type}

theorem Heap.contents_inv {h : Heap α W} {c : Nat} {m : GoMap α}
    (hc : h.contents c = .ok m) :
    ∃ o, h.container c = .ok o ∧ h.mapAt o.data = .ok m := by
  unfold Heap.contents at hc
  cases ho : h.container c with
  | error e => simp [ho] at hc
  | ok o => exact ⟨o, rfl, by simpa [ho] using hc⟩

theorem Empty_eq {h : Heap α W} {c : Nat} {m : GoMap α} (hc : h.contents c = .ok m) :
    Container.Empty c h = .ok (m.length == 0) := by
  obtain ⟨o, ho, hm⟩ := Heap.contents_inv hc
  simp [Container.Empty, bind, Except.bind, ho, hm, pure, Except.pure]

theorem Get_eq {h : Heap α W} {c : Nat} {m : GoMap α} (hc : h.contents c = .ok m)
    (k : String) : Container.Get c k h = .ok (m.index k) := by
  obtain ⟨o, ho, hm⟩ := Heap.contents_inv hc
  cases m with
  | nil => simp [Container.Get, Empty_eq hc, bind, Except.bind, pure, Except.pure, GoMap.index]
  | cons e m =>
    simp [Container.Get, Empty_eq hc, bind, Except.bind, ho, hm, pure, Except.pure]

theorem Keys_eq {h : Heap α W} {c : Nat} {m : GoMap α} (hc : h.contents c = .ok m) :
    Container.Keys c h = .ok m.keys := by
  obtain ⟨o, ho, hm⟩ := Heap.contents_inv hc
  cases m with
  | nil => simp [Container.Keys, Empty_eq hc, bind, Except.bind, pure, Except.pure, GoMap.keys]
  | cons e m =>
    simp [Container.Keys, Empty_eq hc, bind, Except.bind, ho, hm, pure, Except.pure,
      GoMap.foldl_append_keys, GoMap.keys]

theorem From_eq {h : Heap α W} {source : Option Nat} {src : GoMap α}
    (hs : h.mapAt source = .ok src) :
    From source h = .ok (h.objs.length,
      h.push (src.foldl (fun (acc : GoMap α) e => acc.assign e.1 e.2) [])) := by
  have h2 : (h.makeMap.2.alloc ⟨some h.makeMap.1⟩).2 = h.push [] := rfl
  have hloop := Heap.foldlM_push h
    (fun hh (e : String × Value α) => do
      let o ← hh.container h.objs.length
      hh.store o.data e.1 e.2)
    (fun acc e => acc.assign e.1 e.2)
    (by
      intro m x
      simp [bind, Except.bind, Heap.container_push_new, Heap.store_push_new])
    src []
  have hs' := Heap.mapAt_push_old [] hs
  simp only [From, Heap.makeMap, Heap.alloc, bind, Except.bind, pure, Except.pure] at hloop ⊢
  simp only [Heap.push] at hs' hloop ⊢
  simp only [hs', hloop]

theorem And_eq {h : Heap α W} {c : Nat} {m : GoMap α} (hc : h.contents c = .ok m)
    (k : String) (v : Value α) :
    Container.And c k v h = .ok (h.objs.length,
      h.push ((m.foldl (fun (acc : GoMap α) e => acc.assign e.1 e.2) []).assign k v)) := by
  obtain ⟨o, ho, hm⟩ := Heap.contents_inv hc
  simp [Container.And, bind, Except.bind, ho, From_eq hm, Heap.container_push_new,
    Heap.store_push_new, pure, Except.pure]

theorem MergedWith_eq {h : Heap α W} {c : Nat} {m es : GoMap α} {entries : Option Nat}
    (hc : h.contents c = .ok m) (he : h.mapAt entries = .ok es) (hne : es ≠ []) :
    Container.MergedWith c entries h = .ok (h.objs.length,
      h.push (es.foldl (fun (acc : GoMap α) e => acc.assign e.1 e.2)
        (m.foldl (fun (acc : GoMap α) e => acc.assign e.1 e.2) []))) := by
  obtain ⟨o, ho, hm⟩ := Heap.contents_inv hc
  have hlen : (es.length == 0) = false := by
    cases es with
    | nil => exact absurd rfl hne
    | cons e es => rfl
  cases m with
  | nil =>
    simp [Container.MergedWith, bind, Except.bind, he, hlen, Empty_eq hc, From_eq he,
      pure, Except.pure]
  | cons e0 m =>
    have hloop := Heap.foldlM_push h
      (fun hh (e : String × Value α) => do
        let r ← hh.container h.objs.length
        hh.store r.data e.1 e.2)
      (fun acc e => acc.assign e.1 e.2)
      (by
        intro m x
        simp [bind, Except.bind, Heap.container_push_new, Heap.store_push_new])
      es ((e0 :: m).foldl (fun (acc : GoMap α) e => acc.assign e.1 e.2) [])
    simp only [bind, Except.bind, List.foldl_cons] at hloop
    simp [Container.MergedWith, bind, Except.bind, he, hlen, Empty_eq hc, ho, From_eq hm,
      pure, Except.pure, Heap.mapAt_push_old _ he, hloop]

theorem WithoutKeys_eq {h : Heap α W} {c : Nat} {m : GoMap α} {ks : List String}
    (hc : h.contents c = .ok m) (hm0 : m ≠ []) (hks : ks ≠ []) :
    Container.WithoutKeys c ks h = .ok (h.objs.length,
      h.push (ks.foldl (fun (acc : GoMap α) k => acc.remove k)
        (m.foldl (fun (acc : GoMap α) e => acc.assign e.1 e.2) []))) := by
  obtain ⟨o, ho, hm⟩ := Heap.contents_inv hc
  have hlen : (ks.length == 0) = false := by
    cases ks with
    | nil => exact absurd rfl hks
    | cons e es => rfl
  have hlen' : (m.length == 0) = false := by
    cases m with
    | nil => exact absurd rfl hm0
    | cons e es => rfl
  have hloop := Heap.foldlM_push h
    (fun hh (key : String) => do
      let r ← hh.container h.objs.length
      hh.erase r.data key)
    (fun acc k => acc.remove k)
    (by
      intro m x
      simp [bind, Except.bind, Heap.container_push_new, Heap.erase_push_new])
    ks (m.foldl (fun (acc : GoMap α) e => acc.assign e.1 e.2) [])
  simp only [bind, Except.bind] at hloop
  simp [Container.WithoutKeys, bind, Except.bind, hlen, Empty_eq hc, hlen', ho, From_eq hm,
    pure, Except.pure, hloop]

theorem WithKeys_eq {h : Heap α W} {c : Nat} {m : GoMap α} {ks : List String}
    (hc : h.contents c = .ok m) (hm0 : m ≠ []) (hks : ks ≠ []) :
    Container.WithKeys c ks h = .ok (h.objs.length,
      h.push (ks.foldl (fun (acc : GoMap α) k => acc.assign k (m.index k).1) [])) := by
  obtain ⟨o, ho, hm⟩ := Heap.contents_inv hc
  have hlen : (ks.length == 0) = false := by
    cases ks with
    | nil => exact absurd rfl hks
    | cons e es => rfl
  have hlen' : (m.length == 0) = false := by
    cases m with
    | nil => exact absurd rfl hm0
    | cons e es => rfl
  have h2 : (h.makeMap.2.alloc ⟨some h.makeMap.1⟩).2 = h.push [] := rfl
  have hloop := Heap.foldlM_push h
    (fun hh (key : String) => do
      let r ← hh.container h.objs.length
      let o ← hh.container c
      let m ← hh.mapAt o.data
      hh.store r.data key (m.index key).1)
    (fun acc k => acc.assign k (m.index k).1)
    (by
      intro m' x
      simp [bind, Except.bind, Heap.container_push_new, Heap.store_push_new,
        Heap.container_push_old m' ho, Heap.mapAt_push_old m' hm])
    ks []
  simp only [bind, Except.bind, Heap.push] at hloop
  simp only [Container.WithKeys, bind, Except.bind, hlen, Empty_eq hc, hlen', pure,
    Except.pure, Heap.makeMap, Heap.alloc, Heap.push]
  simp [hloop]

end metadata

namespace metadata

namespace GoMap

variable {α : Type}

theorem index_foldl_assign_of_not_mem (es : GoMap α) (k : String) (hk : k ∉ es.keys) :
    ∀ acc : GoMap α,
      (es.foldl (fun (acc : GoMap α) e => acc.assign e.1 e.2) acc).index k = acc.index k := by
  induction es with
  | nil => intro acc; rfl
  | cons e es ih =>
    intro acc
    simp only [keys, List.map_cons, List.mem_cons, not_or] at hk
    rw [List.foldl_cons, ih hk.2, index_assign_ne acc e.2 hk.1]

theorem index_foldl_assign_of_mem (es : GoMap α) (k : String) (hnd : es.keys.Nodup)
    (hk : k ∈ es.keys) :
    ∀ acc : GoMap α,
      (es.foldl (fun (acc : GoMap α) e => acc.assign e.1 e.2) acc).index k
        = ((es.index k).1, true) := by
  induction es with
  | nil => simp [keys] at hk
  | cons e es ih =>
    intro acc
    obtain ⟨k0, v0⟩ := e
    simp only [keys, List.map_cons, List.nodup_cons] at hnd
    by_cases h0 : k0 = k
    · subst h0
      rw [List.foldl_cons, index_foldl_assign_of_not_mem es k0 hnd.1, index_assign_same]
      simp [index]
    · have h1 : ¬ k = k0 := fun h => h0 h.symm
      simp only [keys, List.map_cons, List.mem_cons, h1, false_or] at hk
      rw [List.foldl_cons, ih hnd.2 hk]
      simp [index, h0]

theorem mem_keys_foldl_assign (es : GoMap α) (k : String) :
    ∀ acc : GoMap α,
      k ∈ (es.foldl (fun (acc : GoMap α) e => acc.assign e.1 e.2) acc).keys
        ↔ k ∈ acc.keys ∨ k ∈ es.keys := by
  induction es with
  | nil => intro acc; simp [keys]
  | cons e es ih =>
    intro acc
    rw [List.foldl_cons, ih, mem_keys_assign]
    simp only [keys, List.map_cons, List.mem_cons]
    tauto

theorem nodup_keys_foldl_assign (es : GoMap α) :
    ∀ acc : GoMap α, acc.keys.Nodup →
      (es.foldl (fun (acc : GoMap α) e => acc.assign e.1 e.2) acc).keys.Nodup := by
  induction es with
  | nil => intro acc h; exact h
  | cons e es ih =>
    intro acc h
    rw [List.foldl_cons]
    exact ih _ (nodup_keys_assign acc e.1 e.2 h)

theorem index_foldl_remove_of_mem (ks : List String) (k : String) (hk : k ∈ ks) :
    ∀ acc : GoMap α,
      (ks.foldl (fun (acc : GoMap α) k => acc.remove k) acc).index k = (none, false) := by
  induction ks with
  | nil => simp at hk
  | cons k0 ks ih =>
    intro acc
    rw [List.foldl_cons]
    by_cases hmem : k ∈ ks
    · exact ih hmem _
    · have h0 : k = k0 := by
        rcases List.mem_cons.mp hk with h | h
        · exact h
        · exact absurd h hmem
      subst h0
      clear ih hk
      have : ∀ acc : GoMap α, acc.index k = (none, false) →
          (ks.foldl (fun (acc : GoMap α) k => acc.remove k) acc).index k = (none, false) := by
        induction ks with
        | nil => intro acc h; exact h
        | cons k1 ks ih2 =>
          intro acc h
          have hne : k ≠ k1 := fun e => hmem (e ▸ List.mem_cons_self _ _)
          rw [List.foldl_cons]
          exact ih2 (fun hm => hmem (List.mem_cons_of_mem _ hm)) _
            (by rw [index_remove_ne acc hne]; exact h)
      exact this _ (index_remove_same acc k)

theorem index_foldl_remove_of_not_mem (ks : List String) (k : String) (hk : k ∉ ks) :
    ∀ acc : GoMap α,
      (ks.foldl (fun (acc : GoMap α) k => acc.remove k) acc).index k = acc.index k := by
  induction ks with
  | nil => intro acc; rfl
  | cons k0 ks ih =>
    intro acc
    simp only [List.mem_cons, not_or] at hk
    rw [List.foldl_cons, ih hk.2, index_remove_ne acc hk.1]

theorem keys_foldl_remove (ks : List String) :
    ∀ acc : GoMap α,
      (ks.foldl (fun (acc : GoMap α) k => acc.remove k) acc).keys
        = acc.keys.filter (fun k => decide (k ∉ ks)) := by
  induction ks with
  | nil => intro acc; simp
  | cons k0 ks ih =>
    intro acc
    rw [List.foldl_cons, ih, keys_remove, List.filter_filter]
    congr 1
    funext k
    simp only [List.mem_cons, not_or, Bool.decide_and, Bool.and_comm]

theorem eq_nil_of_keys_eq_nil {m : GoMap α} (h : m.keys = []) : m = [] := by
  cases m with
  | nil => rfl
  | cons e m => simp [keys] at h

end GoMap

/-! ## Frame -/

variable {α W : Type}

theorem Heap.Preserved.rfl_ (h : Heap α W) : h.Preserved h := fun _ _ hc => hc

theorem Heap.Preserved.push (h : Heap α W) (m : GoMap α) : h.Preserved (h.push m) :=
  fun _ _ hc => Heap.contents_push_old m hc

theorem Heap.Preserved.invoke (h : Heap α W) (s : Supplier α W) :
    h.Preserved (h.invoke s).2 := fun _ _ hc => hc

theorem Heap.Preserved.alloc (h : Heap α W) (o : Container) :
    h.Preserved (h.alloc o).2 := by
  intro c m hc
  obtain ⟨o', ho, hm⟩ := Heap.contents_inv hc
  unfold Heap.container at ho
  cases hget : h.objs[c]? with
  | none => simp [hget] at ho
  | some o2 =>
    have hlt : c < h.objs.length := (List.getElem?_eq_some_iff.mp hget).1
    simp only [hget] at ho
    cases ho
    have : (h.alloc o).2.container c = .ok o' := by
      simp [Heap.container, Heap.alloc, List.getElem?_append_left hlt, hget]
    simp only [Heap.contents, this]
    exact hm

theorem Heap.Preserved.trans {h1 h2 h3 : Heap α W} (h12 : h1.Preserved h2)
    (h23 : h2.Preserved h3) : h1.Preserved h3 :=
  fun c m hc => h23 c m (h12 c m hc)

end metadata

namespace metadata

/-! ## The claims -/

variable {α W : Type}

theorem testHeap_WF : testHeap.WF := by
  constructor
  · intro m hm
    simp only [testHeap, List.mem_cons, List.mem_singleton, List.not_mem_nil, or_false] at hm
    rcases hm with rfl | rfl | rfl | rfl <;> decide
  · intro o ho a ha
    simp only [testHeap, List.mem_cons, List.mem_singleton, List.not_mem_nil, or_false] at ho
    rcases ho with rfl | rfl
    · simp only [Option.mem_def, Option.some.injEq] at ha
      subst ha
      decide
    · simp at ha

/-- C2: for every container `c`, key `k` and value `v`, `c.And(k, v)` returns a
container `m` with `m.Get(k) = (v, true)` and `m.Get(k') = c.Get(k')` for every
other key `k'`; `m` has as many keys as `c` when `k` is present in `c` and one
more when it is absent. -/
theorem And_sets_key (h : Heap α W) (hwf : h.WF) (c : Nat) (hc : c < h.objs.length)
    (k : String) (v : Value α) :
    ∃ m h', Container.And c k v h = .ok (m, h') ∧
      Container.Get m k h' = .ok (v, true) ∧
      (∀ k', k' ≠ k → Container.Get m k' h' = Container.Get c k' h) ∧
      ∃ ks ks' x found, Container.Keys c h = .ok ks ∧ Container.Keys m h' = .ok ks' ∧
        Container.Get c k h = .ok (x, found) ∧
        (found = true → ks'.length = ks.length) ∧
        (found = false → ks'.length = ks.length + 1) := by
  obtain ⟨m0, hm0, hnd⟩ := hwf.contents_ok hc
  have hnew : (h.push (m0.assign k v)).contents h.objs.length = .ok (m0.assign k v) :=
    Heap.contents_push_new h _
  refine ⟨h.objs.length, h.push (m0.assign k v), ?_, ?_, ?_, ?_⟩
  · rw [And_eq hm0, GoMap.foldl_assign_nil m0 hnd]
  · rw [Get_eq hnew, GoMap.index_assign_same]
  · intro k' hne
    rw [Get_eq hnew, Get_eq hm0, GoMap.index_assign_ne m0 v hne]
  · refine ⟨m0.keys, (m0.assign k v).keys, (m0.index k).1, (m0.index k).2,
      Keys_eq hm0, Keys_eq hnew, Get_eq hm0 k, ?_, ?_⟩
    · intro hf
      rw [GoMap.keys_assign_of_mem m0 k v ((GoMap.index_snd_iff m0 k).mp hf)]
    · intro hf
      have hk : k ∉ m0.keys := fun hmem => by
        rw [(GoMap.index_snd_iff m0 k).mpr hmem] at hf
        exact Bool.noConfusion hf
      rw [GoMap.keys_assign_of_not_mem m0 k v hk]
      simp

theorem And_sets_key_witness :
    testHeap.WF ∧ 0 < testHeap.objs.length ∧
    ∃ m h', Container.And 0 "aKey" (some (.inl "aValue")) testHeap = .ok (m, h') ∧
      Container.Get m "aKey" h' = .ok (some (.inl "aValue"), true) ∧
      (∀ k', k' ≠ "aKey" → Container.Get m k' h' = Container.Get 0 k' testHeap) ∧
      ∃ ks ks' x found, Container.Keys 0 testHeap = .ok ks ∧
        Container.Keys m h' = .ok ks' ∧
        Container.Get 0 "aKey" testHeap = .ok (x, found) ∧
        (found = true → ks'.length = ks.length) ∧
        (found = false → ks'.length = ks.length + 1) :=
  ⟨testHeap_WF, by decide,
    And_sets_key testHeap testHeap_WF 0 (by decide) "aKey" (some (.inl "aValue"))⟩

end metadata

namespace metadata

variable {α W : Type}

theorem Empty_error {h : Heap α W} {c : Nat} {e : Fault} (hc : h.contents c = .error e) :
    Container.Empty c h = .error e := by
  unfold Heap.contents at hc
  unfold Container.Empty
  cases ho : h.container c with
  | error e' =>
    simp only [ho] at hc
    cases hc
    rfl
  | ok o =>
    simp only [ho] at hc
    simp [bind, Except.bind, hc]

theorem Get_inv {h : Heap α W} {c : Nat} {k : String} {r : Value α × Bool}
    (hg : Container.Get c k h = .ok r) : ∃ m, h.contents c = .ok m ∧ m.index k = r := by
  cases hc : h.contents c with
  | error e =>
    have : Container.Get c k h = .error e := by
      simp [Container.Get, Empty_error hc, bind, Except.bind]
    rw [this] at hg
    cases hg
  | ok m =>
    rw [Get_eq hc] at hg
    cases hg
    exact ⟨m, rfl, rfl⟩

theorem Empty_inv {h : Heap α W} {c : Nat} {b : Bool}
    (hg : Container.Empty c h = .ok b) :
    ∃ m, h.contents c = .ok m ∧ (m.length == 0) = b := by
  cases hc : h.contents c with
  | error e =>
    rw [Empty_error hc] at hg
    cases hg
  | ok m =>
    rw [Empty_eq hc] at hg
    cases hg
    exact ⟨m, rfl, rfl⟩

theorem Keys_inv {h : Heap α W} {c : Nat} {ks : List String}
    (hg : Container.Keys c h = .ok ks) : ∃ m, h.contents c = .ok m ∧ m.keys = ks := by
  cases hc : h.contents c with
  | error e =>
    have : Container.Keys c h = .error e := by
      simp [Container.Keys, Empty_error hc, bind, Except.bind]
    rw [this] at hg
    cases hg
  | ok m =>
    rw [Keys_eq hc] at hg
    cases hg
    exact ⟨m, rfl, rfl⟩

theorem AndIfNotPresent_of_present {h : Heap α W} {c : Nat} {m : GoMap α} {k : String}
    (hc : h.contents c = .ok m) (hk : (m.index k).2 = true) (s : Supplier α W) :
    Container.AndIfNotPresent c k s h = .ok (c, h) := by
  obtain ⟨o, ho, hm⟩ := Heap.contents_inv hc
  have hlen : (m.length == 0) = false := by
    cases m with
    | nil => simp [GoMap.index] at hk
    | cons e m => rfl
  simp [Container.AndIfNotPresent, Empty_eq hc, hlen, bind, Except.bind, ho, hm, hk,
    pure, Except.pure]

theorem AndIfNotPresent_of_absent {h : Heap α W} {c : Nat} {m : GoMap α} {k : String}
    (hc : h.contents c = .ok m) (hk : (m.index k).2 = false) (s : Supplier α W) :
    Container.AndIfNotPresent c k s h
      = Container.And c k (s h.world).1 (h.invoke s).2 := by
  obtain ⟨o, ho, hm⟩ := Heap.contents_inv hc
  cases hlen : (m.length == 0) with
  | true =>
    simp [Container.AndIfNotPresent, Empty_eq hc, hlen, bind, Except.bind, Heap.invoke]
    cases Container.And c k (s h.world).1
        { maps := h.maps, objs := h.objs, world := (s h.world).2, calls := h.calls + 1 } <;> rfl
  | false =>
    simp [Container.AndIfNotPresent, Empty_eq hc, hlen, bind, Except.bind, ho, hm, hk,
      Heap.invoke]
    cases Container.And c k (s h.world).1
        { maps := h.maps, objs := h.objs, world := (s h.world).2, calls := h.calls + 1 } <;> rfl

/-- C3: when `k` is present in `c`, `c.AndIfNotPresent(k, s)` returns the receiver
itself and leaves the heap as it was: the supplier is not invoked (the count of
invocations and the world are unchanged) and `k` still has its original value. -/
theorem AndIfNotPresent_present_returns_receiver (h : Heap α W) (c : Nat) (k : String)
    (s : Supplier α W) (x : Value α) (hpres : Container.Get c k h = .ok (x, true)) :
    ∃ m h', Container.AndIfNotPresent c k s h = .ok (m, h') ∧ m = c ∧ h' = h ∧
      h'.calls = h.calls ∧ h'.world = h.world ∧
      h'.contents c = h.contents c ∧ Container.Get m k h' = .ok (x, true) := by
  obtain ⟨m0, hm0, hidx⟩ := Get_inv hpres
  have hk : (m0.index k).2 = true := by rw [hidx]
  exact ⟨c, h, AndIfNotPresent_of_present hm0 hk s, rfl, rfl, rfl, rfl, rfl, hpres⟩

theorem AndIfNotPresent_present_returns_receiver_witness :
    Container.Get 0 "key1" testHeap = .ok (some (.inl "value1"), true) ∧
    ∃ m h', Container.AndIfNotPresent 0 "key1" testSupplier testHeap = .ok (m, h') ∧
      m = 0 ∧ h' = testHeap ∧ h'.calls = testHeap.calls ∧ h'.world = testHeap.world ∧
      h'.contents 0 = testHeap.contents 0 ∧
      Container.Get m "key1" h' = .ok (some (.inl "value1"), true) :=
  ⟨rfl, AndIfNotPresent_present_returns_receiver testHeap 0 "key1" testSupplier
    (some (.inl "value1")) rfl⟩

/-- C4: when `k` is absent from `c` (an empty `c` included), `c.AndIfNotPresent(k, s)`
invokes `s` exactly once and returns what `c.And(k, x)` returns for the value `x`
of that invocation: `Get(k) = (x, true)`, every other key as in `c`, and one more
key than `c`. -/
theorem AndIfNotPresent_absent_adds_supplied (h : Heap α W) (hwf : h.WF) (c : Nat)
    (hc : c < h.objs.length) (k : String) (s : Supplier α W) (y : Value α)
    (habs : Container.Get c k h = .ok (y, false)) :
    ∃ m h', Container.AndIfNotPresent c k s h = .ok (m, h') ∧
      h'.calls = h.calls + 1 ∧ h'.world = (s h.world).2 ∧
      Container.And c k (s h.world).1 (h.invoke s).2 = .ok (m, h') ∧
      Container.Get m k h' = .ok ((s h.world).1, true) ∧
      (∀ k', k' ≠ k → Container.Get m k' h' = Container.Get c k' h) ∧
      ∃ ks ks', Container.Keys c h = .ok ks ∧ Container.Keys m h' = .ok ks' ∧
        ks'.length = ks.length + 1 := by
  obtain ⟨m0, hm0, hidx⟩ := Get_inv habs
  obtain ⟨m1, hm1, hnd⟩ := hwf.contents_ok hc
  have hmm : m1 = m0 := by
    rw [hm0] at hm1
    cases hm1
    rfl
  subst hmm
  have hk : (m1.index k).2 = false := by rw [hidx]
  have hnotmem : k ∉ m1.keys := fun hmem => by
    rw [(GoMap.index_snd_iff m1 k).mpr hmem] at hk
    exact Bool.noConfusion hk
  have hm0' : (h.invoke s).2.contents c = .ok m1 := hm0
  have hand := And_eq hm0' k (s h.world).1
  rw [GoMap.foldl_assign_nil m1 hnd] at hand
  have hnew : ((h.invoke s).2.push (m1.assign k (s h.world).1)).contents h.objs.length
      = .ok (m1.assign k (s h.world).1) :=
    Heap.contents_push_new (h.invoke s).2 _
  refine ⟨h.objs.length, (h.invoke s).2.push (m1.assign k (s h.world).1), ?_, rfl, rfl,
    hand, ?_, ?_, ?_⟩
  · rw [AndIfNotPresent_of_absent hm0 hk s]
    exact hand
  · rw [Get_eq hnew, GoMap.index_assign_same]
  · intro k' hne
    rw [Get_eq hnew, Get_eq hm0, GoMap.index_assign_ne m1 _ hne]
  · refine ⟨m1.keys, (m1.assign k (s h.world).1).keys, Keys_eq hm0, Keys_eq hnew, ?_⟩
    rw [GoMap.keys_assign_of_not_mem m1 k _ hnotmem]
    simp

theorem AndIfNotPresent_absent_adds_supplied_witness :
    testHeap.WF ∧ 1 < testHeap.objs.length ∧
    Container.Get 1 "aKey" testHeap = .ok (none, false) ∧
    ∃ m h', Container.AndIfNotPresent 1 "aKey" testSupplier testHeap = .ok (m, h') ∧
      h'.calls = testHeap.calls + 1 ∧ h'.world = (testSupplier testHeap.world).2 ∧
      Container.And 1 "aKey" (testSupplier testHeap.world).1 (testHeap.invoke testSupplier).2
        = .ok (m, h') ∧
      Container.Get m "aKey" h' = .ok ((testSupplier testHeap.world).1, true) ∧
      (∀ k', k' ≠ "aKey" → Container.Get m k' h' = Container.Get 1 k' testHeap) ∧
      ∃ ks ks', Container.Keys 1 testHeap = .ok ks ∧ Container.Keys m h' = .ok ks' ∧
        ks'.length = ks.length + 1 :=
  ⟨testHeap_WF, by decide, rfl,
    AndIfNotPresent_absent_adds_supplied testHeap testHeap_WF 1 (by decide) "aKey"
      testSupplier none rfl⟩

end metadata

namespace metadata

variable {α W : Type}

theorem Heap.WF.mapAt_some {h : Heap α W} (hwf : h.WF) {a : Nat} {es : GoMap α}
    (he : h.maps[a]? = some es) : h.mapAt (some a) = .ok es ∧ es.keys.Nodup := by
  refine ⟨by simp [Heap.mapAt, he], hwf.1 es ?_⟩
  obtain ⟨hlt, heq⟩ := List.getElem?_eq_some_iff.mp he
  exact heq ▸ List.getElem_mem hlt

/-- C5: for a non-empty mapping `e`, `c.MergedWith(e)` is the overlay of `e` on `c`:
a key of `e` reads as `(e[k], true)`, any other key reads as in `c`, the number of
keys is the size of the union of the two key sets, and on an empty `c` the result
is what `From(e)` returns. -/
theorem MergedWith_overlays (h : Heap α W) (hwf : h.WF) (c : Nat) (hc : c < h.objs.length)
    (a : Nat) (es : GoMap α) (he : h.maps[a]? = some es) (hne : es ≠ []) :
    ∃ m h', Container.MergedWith c (some a) h = .ok (m, h') ∧
      (∀ k, k ∈ es.keys → Container.Get m k h' = .ok ((es.index k).1, true)) ∧
      (∀ k, k ∉ es.keys → Container.Get m k h' = Container.Get c k h) ∧
      (∃ ks ks', Container.Keys c h = .ok ks ∧ Container.Keys m h' = .ok ks' ∧
        ks'.length = (ks.toFinset ∪ es.keys.toFinset).card) ∧
      (Container.Empty c h = .ok true → From (some a) h = .ok (m, h')) := by
  obtain ⟨m0, hm0, hnd⟩ := hwf.contents_ok hc
  obtain ⟨hes, hesnd⟩ := hwf.mapAt_some he
  have hmerge := MergedWith_eq hm0 hes hne
  rw [GoMap.foldl_assign_nil m0 hnd] at hmerge
  have hnew := Heap.contents_push_new h
    (es.foldl (fun (acc : GoMap α) e => acc.assign e.1 e.2) m0)
  refine ⟨_, _, hmerge, ?_, ?_, ?_, ?_⟩
  · intro k hk
    rw [Get_eq hnew, GoMap.index_foldl_assign_of_mem es k hesnd hk]
  · intro k hk
    rw [Get_eq hnew, Get_eq hm0, GoMap.index_foldl_assign_of_not_mem es k hk]
  · refine ⟨_, _, Keys_eq hm0, Keys_eq hnew, ?_⟩
    rw [← List.toFinset_card_of_nodup (GoMap.nodup_keys_foldl_assign es m0 hnd)]
    congr 1
    ext k
    simp [GoMap.mem_keys_foldl_assign]
  · intro hemp
    rw [Empty_eq hm0] at hemp
    have hm0nil : m0 = [] := by
      cases m0 with
      | nil => rfl
      | cons e m => cases hemp
    subst hm0nil
    rw [From_eq hes]

theorem MergedWith_overlays_witness :
    testHeap.WF ∧ 0 < testHeap.objs.length ∧ testHeap.maps[3]? = some testEntries ∧
    testEntries ≠ [] ∧
    ∃ m h', Container.MergedWith 0 (some 3) testHeap = .ok (m, h') ∧
      (∀ k, k ∈ testEntries.keys →
        Container.Get m k h' = .ok ((testEntries.index k).1, true)) ∧
      (∀ k, k ∉ testEntries.keys → Container.Get m k h' = Container.Get 0 k testHeap) ∧
      (∃ ks ks', Container.Keys 0 testHeap = .ok ks ∧ Container.Keys m h' = .ok ks' ∧
        ks'.length = (ks.toFinset ∪ testEntries.keys.toFinset).card) ∧
      (Container.Empty 0 testHeap = .ok true → From (some 3) testHeap = .ok (m, h')) :=
  ⟨testHeap_WF, by decide, rfl, by decide,
    MergedWith_overlays testHeap testHeap_WF 0 (by decide) 3 testEntries rfl (by decide)⟩

/-- C6: for a non-empty container `c` and a non-empty list `ks`, `c.WithoutKeys(ks...)`
returns a container in which every key of `ks` is not found and every other key
reads as in `c`; its key set is the key set of `c` minus `ks`, and a key of `ks`
that is absent from `c` changes nothing. -/
theorem WithoutKeys_removes (h : Heap α W) (hwf : h.WF) (c : Nat) (hc : c < h.objs.length)
    (ks : List String) (hks : ks ≠ []) (hne : Container.Empty c h = .ok false) :
    ∃ m h', Container.WithoutKeys c ks h = .ok (m, h') ∧
      (∀ k, k ∈ ks → Container.Get m k h' = .ok (none, false)) ∧
      (∀ k, k ∉ ks → Container.Get m k h' = Container.Get c k h) ∧
      ∃ kc km, Container.Keys c h = .ok kc ∧ Container.Keys m h' = .ok km ∧
        (∀ k, k ∈ km ↔ k ∈ kc ∧ k ∉ ks) ∧
        (∀ k, k ∈ ks → k ∉ kc → Container.Get m k h' = Container.Get c k h) := by
  obtain ⟨m0, hm0, hnd⟩ := hwf.contents_ok hc
  have hm0ne : m0 ≠ [] := by
    intro hnil
    subst hnil
    rw [Empty_eq hm0] at hne
    cases hne
  have hwk := WithoutKeys_eq hm0 hm0ne hks
  rw [GoMap.foldl_assign_nil m0 hnd] at hwk
  have hnew := Heap.contents_push_new h
    (ks.foldl (fun (acc : GoMap α) k => acc.remove k) m0)
  refine ⟨_, _, hwk, ?_, ?_, ?_⟩
  · intro k hk
    rw [Get_eq hnew, GoMap.index_foldl_remove_of_mem ks k hk]
  · intro k hk
    rw [Get_eq hnew, Get_eq hm0, GoMap.index_foldl_remove_of_not_mem ks k hk]
  · refine ⟨_, _, Keys_eq hm0, Keys_eq hnew, ?_, ?_⟩
    · intro k
      rw [GoMap.keys_foldl_remove]
      simp
    · intro k hk hkc
      rw [Get_eq hnew, Get_eq hm0, GoMap.index_foldl_remove_of_mem ks k hk,
        GoMap.index_of_not_mem m0 k hkc]

theorem WithoutKeys_removes_witness :
    testHeap.WF ∧ 0 < testHeap.objs.length ∧ ["key1", "missing"] ≠ [] ∧
    Container.Empty 0 testHeap = .ok false ∧
    ∃ m h', Container.WithoutKeys 0 ["key1", "missing"] testHeap = .ok (m, h') ∧
      (∀ k, k ∈ ["key1", "missing"] → Container.Get m k h' = .ok (none, false)) ∧
      (∀ k, k ∉ ["key1", "missing"] → Container.Get m k h' = Container.Get 0 k testHeap) ∧
      ∃ kc km, Container.Keys 0 testHeap = .ok kc ∧ Container.Keys m h' = .ok km ∧
        (∀ k, k ∈ km ↔ k ∈ kc ∧ k ∉ ["key1", "missing"]) ∧
        (∀ k, k ∈ ["key1", "missing"] → k ∉ kc →
          Container.Get m k h' = Container.Get 0 k testHeap) :=
  ⟨testHeap_WF, by decide, by decide, rfl,
    WithoutKeys_removes testHeap testHeap_WF 0 (by decide) ["key1", "missing"]
      (by decide) rfl⟩

/-- C8: for every non-nil mapping `m`, the keys of `From(m)` are the keys of `m`,
`From(m).Get(k) = (m[k], true)` for every key `k` of `m`, and `Get` reports not
found for every other key. -/
theorem From_round_trip (h : Heap α W) (hwf : h.WF) (a : Nat) (src : GoMap α)
    (hs : h.maps[a]? = some src) :
    ∃ c h', From (some a) h = .ok (c, h') ∧
      (∃ ks, Container.Keys c h' = .ok ks ∧ ∀ k, k ∈ ks ↔ k ∈ src.keys) ∧
      (∀ k, k ∈ src.keys → Container.Get c k h' = .ok ((src.index k).1, true)) ∧
      (∀ k, k ∉ src.keys → Container.Get c k h' = .ok (none, false)) := by
  obtain ⟨hsrc, hnd⟩ := hwf.mapAt_some hs
  have hfrom := From_eq hsrc
  rw [GoMap.foldl_assign_nil src hnd] at hfrom
  have hnew := Heap.contents_push_new h src
  refine ⟨_, _, hfrom, ⟨src.keys, Keys_eq hnew, fun _ => Iff.rfl⟩, ?_, ?_⟩
  · intro k hk
    rw [Get_eq hnew]
    have h2 : (src.index k).2 = true := (GoMap.index_snd_iff src k).mpr hk
    rw [← h2]
  · intro k hk
    rw [Get_eq hnew, GoMap.index_of_not_mem src k hk]

theorem From_round_trip_witness :
    testHeap.WF ∧ testHeap.maps[0]? = some testSource ∧
    ∃ c h', From (some 0) testHeap = .ok (c, h') ∧
      (∃ ks, Container.Keys c h' = .ok ks ∧ ∀ k, k ∈ ks ↔ k ∈ testSource.keys) ∧
      (∀ k, k ∈ testSource.keys →
        Container.Get c k h' = .ok ((testSource.index k).1, true)) ∧
      (∀ k, k ∉ testSource.keys → Container.Get c k h' = .ok (none, false)) :=
  ⟨testHeap_WF, rfl, From_round_trip testHeap testHeap_WF 0 testSource rfl⟩

end metadata

namespace metadata

variable {α W : Type}

/-- C9: `Get` on a key that is not an entry of the container reports not found:
for every container `c` of every heap and every key `k` outside the map behind
`c`, `c.Get(k)` is `(nil, false)`; on every empty container, and on the container
that `Empty()` returns, every `Get` is `(nil, false)`. -/
theorem Get_absent_not_found (h : Heap α W) :
    (∀ c m k, h.contents c = .ok m → k ∉ m.keys →
      Container.Get c k h = .ok (none, false)) ∧
    (∀ c0 k, Container.Empty c0 h = .ok true → Container.Get c0 k h = .ok (none, false)) ∧
    (∀ k, Container.Get (Empty h).1 k (Empty h).2 = .ok (none, false)) := by
  refine ⟨?_, ?_, ?_⟩
  · intro c m k hm hk
    rw [Get_eq hm, GoMap.index_of_not_mem m k hk]
  · intro c0 k hemp
    obtain ⟨m0, hm0, hlen⟩ := Empty_inv hemp
    have hm0nil : m0 = [] := by
      cases m0 with
      | nil => rfl
      | cons e m => cases hlen
    subst hm0nil
    rw [Get_eq hm0]
    rfl
  · intro k
    have hnew : (Empty h).2.contents (Empty h).1 = .ok [] := by
      simp [Empty, Heap.alloc, Heap.contents, Heap.container, Heap.mapAt]
    rw [Get_eq hnew]
    rfl

theorem Get_absent_not_found_witness :
    aContainerHeap.contents 0 = .ok testSource ∧ "missing" ∉ testSource.keys ∧
    Container.Get 0 "missing" aContainerHeap = .ok (none, false) ∧
    Container.Empty 1 testHeap = .ok true ∧
    Container.Get 1 "aKey" testHeap = .ok (none, false) ∧
    Container.Get (Empty aContainerHeap).1 "aKey" (Empty aContainerHeap).2
      = .ok (none, false) :=
  ⟨rfl, by decide,
    (Get_absent_not_found aContainerHeap).1 0 testSource "missing" rfl (by decide),
    rfl,
    (Get_absent_not_found testHeap).2.1 1 "aKey" rfl,
    (Get_absent_not_found aContainerHeap).2.2 "aKey"⟩

theorem MergedWith_of_nil {h : Heap α W} {entries : Option Nat}
    (he : h.mapAt entries = .ok []) (c : Nat) :
    Container.MergedWith c entries h = .ok (c, h) := by
  simp [Container.MergedWith, bind, Except.bind, he, pure, Except.pure]

/-- C10: `c.MergedWith(e)` with `e` nil or an empty mapping returns the receiver
itself and leaves the heap, hence the contents of `c`, as it was. -/
theorem MergedWith_nothing_returns_receiver (h : Heap α W) (c : Nat) (entries : Option Nat)
    (he : entries = none ∨ ∃ a, entries = some a ∧ h.maps[a]? = some []) :
    ∃ m h', Container.MergedWith c entries h = .ok (m, h') ∧ m = c ∧ h' = h ∧
      h'.contents c = h.contents c := by
  have hmap : h.mapAt entries = .ok [] := by
    rcases he with rfl | ⟨a, rfl, ha⟩
    · rfl
    · simp [Heap.mapAt, ha]
  exact ⟨c, h, MergedWith_of_nil hmap c, rfl, rfl, rfl⟩

theorem MergedWith_nothing_returns_receiver_witness :
    ((none : Option Nat) = none ∨
        ∃ a, (none : Option Nat) = some a ∧ testHeap.maps[a]? = some []) ∧
    (∃ m h', Container.MergedWith 0 none testHeap = .ok (m, h') ∧ m = 0 ∧ h' = testHeap ∧
      h'.contents 0 = testHeap.contents 0) ∧
    (some 2 = none ∨ ∃ a, some 2 = some a ∧ testHeap.maps[a]? = some []) ∧
    (∃ m h', Container.MergedWith 0 (some 2) testHeap = .ok (m, h') ∧ m = 0 ∧
      h' = testHeap ∧ h'.contents 0 = testHeap.contents 0) :=
  ⟨Or.inl rfl,
    MergedWith_nothing_returns_receiver testHeap 0 none (Or.inl rfl),
    Or.inr ⟨2, rfl, rfl⟩,
    MergedWith_nothing_returns_receiver testHeap 0 (some 2) (Or.inr ⟨2, rfl, rfl⟩)⟩

/-! ### Frame -/

theorem Unchanged.of_preserved {h h' : Heap α W} {c : Nat} {m : GoMap α}
    (hc : h.contents c = .ok m) (hp : h.Preserved h') : Unchanged c h h' := by
  have hc' := hp c m hc
  refine ⟨?_, fun k => ?_⟩
  · rw [Keys_eq hc', Keys_eq hc]
  · rw [Get_eq hc', Get_eq hc]

theorem And_preserves {h : Heap α W} {c : Nat} {m : GoMap α} (hc : h.contents c = .ok m)
    (k : String) (v : Value α) :
    ∃ r h', Container.And c k v h = .ok (r, h') ∧ h.Preserved h' :=
  ⟨_, _, And_eq hc k v, Heap.Preserved.push h _⟩

theorem AndIfNotPresent_preserves {h : Heap α W} {c : Nat} {m : GoMap α}
    (hc : h.contents c = .ok m) (k : String) (s : Supplier α W) :
    ∃ r h', Container.AndIfNotPresent c k s h = .ok (r, h') ∧ h.Preserved h' := by
  cases hk : (m.index k).2 with
  | true => exact ⟨c, h, AndIfNotPresent_of_present hc hk s, Heap.Preserved.rfl_ h⟩
  | false =>
    have hc' : (h.invoke s).2.contents c = .ok m := hc
    have hand := And_eq hc' k (s h.world).1
    rw [← AndIfNotPresent_of_absent hc hk s] at hand
    exact ⟨_, _, hand, (Heap.Preserved.invoke h s).trans (Heap.Preserved.push _ _)⟩

theorem MergedWith_preserves {h : Heap α W} {c : Nat} {m : GoMap α}
    (hc : h.contents c = .ok m) (entries : Option Nat)
    (hent : ∀ a ∈ entries, a < h.maps.length) :
    ∃ r h', Container.MergedWith c entries h = .ok (r, h') ∧ h.Preserved h' := by
  have hes : ∃ es, h.mapAt entries = .ok es := by
    cases entries with
    | none => exact ⟨[], rfl⟩
    | some a =>
      have ha : a < h.maps.length := hent a rfl
      exact ⟨h.maps[a], by simp [Heap.mapAt, List.getElem?_eq_getElem ha]⟩
  obtain ⟨es, hes⟩ := hes
  by_cases hnil : es = []
  · subst hnil
    exact ⟨c, h, MergedWith_of_nil hes c, Heap.Preserved.rfl_ h⟩
  · exact ⟨_, _, MergedWith_eq hc hes hnil, Heap.Preserved.push h _⟩

theorem WithKeys_nil (c : Nat) (h : Heap α W) :
    Container.WithKeys c [] h = .ok (Empty h) := by
  simp [Container.WithKeys, pure, Except.pure]

theorem WithKeys_of_empty {h : Heap α W} {c : Nat} (hc : h.contents c = .ok [])
    {ks : List String} (hks : ks ≠ []) : Container.WithKeys c ks h = .ok (c, h) := by
  have hlen : (ks.length == 0) = false := by
    cases ks with
    | nil => exact absurd rfl hks
    | cons e es => rfl
  simp [Container.WithKeys, hlen, Empty_eq hc, bind, Except.bind, pure, Except.pure]

theorem WithoutKeys_nil (c : Nat) (h : Heap α W) :
    Container.WithoutKeys c [] h = .ok (c, h) := by
  simp [Container.WithoutKeys, pure, Except.pure]

theorem WithoutKeys_of_empty {h : Heap α W} {c : Nat} (hc : h.contents c = .ok [])
    (ks : List String) : Container.WithoutKeys c ks h = .ok (c, h) := by
  cases ks with
  | nil => exact WithoutKeys_nil c h
  | cons k ks =>
    simp [Container.WithoutKeys, Empty_eq hc, bind, Except.bind, pure, Except.pure]

theorem WithKeys_preserves {h : Heap α W} {c : Nat} {m : GoMap α}
    (hc : h.contents c = .ok m) (ks : List String) :
    ∃ r h', Container.WithKeys c ks h = .ok (r, h') ∧ h.Preserved h' := by
  by_cases hks : ks = []
  · subst hks
    exact ⟨_, _, WithKeys_nil c h, Heap.Preserved.alloc h _⟩
  · by_cases hm : m = []
    · subst hm
      exact ⟨c, h, WithKeys_of_empty hc hks, Heap.Preserved.rfl_ h⟩
    · exact ⟨_, _, WithKeys_eq hc hm hks, Heap.Preserved.push h _⟩

theorem WithoutKeys_preserves {h : Heap α W} {c : Nat} {m : GoMap α}
    (hc : h.contents c = .ok m) (ks : List String) :
    ∃ r h', Container.WithoutKeys c ks h = .ok (r, h') ∧ h.Preserved h' := by
  by_cases hks : ks = []
  · subst hks
    exact ⟨c, h, WithoutKeys_nil c h, Heap.Preserved.rfl_ h⟩
  · by_cases hm : m = []
    · subst hm
      exact ⟨c, h, WithoutKeys_of_empty hc ks, Heap.Preserved.rfl_ h⟩
    · exact ⟨_, _, WithoutKeys_eq hc hm hks, Heap.Preserved.push h _⟩

/-- C7: no mutator changes its receiver: each of `And`, `AndIfNotPresent`,
`MergedWith`, `WithKeys` and `WithoutKeys`, called on `c` with any arguments,
returns, and afterwards `c` has the keys and the value under every key that it
had before the call. -/
theorem mutators_leave_receiver_unchanged (h : Heap α W) (hwf : h.WF) (c : Nat)
    (hc : c < h.objs.length) (k : String) (v : Value α) (s : Supplier α W)
    (entries : Option Nat) (hent : ∀ a ∈ entries, a < h.maps.length) (ks : List String) :
    (∃ r h', Container.And c k v h = .ok (r, h') ∧ Unchanged c h h') ∧
    (∃ r h', Container.AndIfNotPresent c k s h = .ok (r, h') ∧ Unchanged c h h') ∧
    (∃ r h', Container.MergedWith c entries h = .ok (r, h') ∧ Unchanged c h h') ∧
    (∃ r h', Container.WithKeys c ks h = .ok (r, h') ∧ Unchanged c h h') ∧
    (∃ r h', Container.WithoutKeys c ks h = .ok (r, h') ∧ Unchanged c h h') := by
  obtain ⟨m, hm, -⟩ := hwf.contents_ok hc
  refine ⟨?_, ?_, ?_, ?_, ?_⟩
  · obtain ⟨r, h', hr, hp⟩ := And_preserves hm k v
    exact ⟨r, h', hr, Unchanged.of_preserved hm hp⟩
  · obtain ⟨r, h', hr, hp⟩ := AndIfNotPresent_preserves hm k s
    exact ⟨r, h', hr, Unchanged.of_preserved hm hp⟩
  · obtain ⟨r, h', hr, hp⟩ := MergedWith_preserves hm entries hent
    exact ⟨r, h', hr, Unchanged.of_preserved hm hp⟩
  · obtain ⟨r, h', hr, hp⟩ := WithKeys_preserves hm ks
    exact ⟨r, h', hr, Unchanged.of_preserved hm hp⟩
  · obtain ⟨r, h', hr, hp⟩ := WithoutKeys_preserves hm ks
    exact ⟨r, h', hr, Unchanged.of_preserved hm hp⟩

theorem mutators_leave_receiver_unchanged_witness :
    testHeap.WF ∧ 0 < testHeap.objs.length ∧ (∀ a ∈ some 3, a < testHeap.maps.length) ∧
    ((∃ r h', Container.And 0 "key3" (some (.inl "value3")) testHeap = .ok (r, h') ∧
        Unchanged 0 testHeap h') ∧
      (∃ r h', Container.AndIfNotPresent 0 "key3" testSupplier testHeap = .ok (r, h') ∧
        Unchanged 0 testHeap h') ∧
      (∃ r h', Container.MergedWith 0 (some 3) testHeap = .ok (r, h') ∧
        Unchanged 0 testHeap h') ∧
      (∃ r h', Container.WithKeys 0 ["key1", "key3"] testHeap = .ok (r, h') ∧
        Unchanged 0 testHeap h') ∧
      (∃ r h', Container.WithoutKeys 0 ["key1", "key3"] testHeap = .ok (r, h') ∧
        Unchanged 0 testHeap h')) :=
  ⟨testHeap_WF, by decide, by decide,
    mutators_leave_receiver_unchanged testHeap testHeap_WF 0 (by decide) "key3"
      (some (.inl "value3")) testSupplier (some 3) (by decide) ["key1", "key3"]⟩

/-- C1 (evaluation at a requested key that the receiver lacks): on the container
`From({"key1": "value1", "key2": 2})`, where `Get("missing")` is `(nil, false)`,
`WithKeys("key1", "missing")` returns a container that has the entry
`"missing"`, with the nil value: `Get("missing")` is `(nil, true)` and `Keys()` is
`["key1", "missing"]`. -/
theorem WithKeys_absent_key_becomes_entry :
    Container.Get 0 "missing" testHeap = .ok (none, false) ∧
    ∃ h', Container.WithKeys 0 ["key1", "missing"] testHeap = .ok (2, h') ∧
      Container.Get 2 "missing" h' = .ok (none, true) ∧
      Container.Keys 2 h' = .ok ["key1", "missing"] :=
  ⟨rfl, _, rfl, rfl, rfl⟩

end metadata

namespace metadata

variable {α W : Type}

theorem contents_of_Empty {h : Heap α W} {c : Nat} (hemp : Container.Empty c h = .ok true) :
    h.contents c = .ok [] := by
  obtain ⟨m, hm, hlen⟩ := Empty_inv hemp
  cases m with
  | nil => exact hm
  | cons e m => cases hlen

/-- C11: `WithoutKeys` is the identity in its two no-op cases: for every container
`c` of every heap, `c.WithoutKeys()` with no keys returns the receiver itself and
leaves the heap as it was; and for every empty container `c` and any list of
keys, `c.WithoutKeys(keys...)` returns the receiver itself, the heap is as it
was and `c` is still empty. -/
theorem WithoutKeys_noop_returns_receiver (h : Heap α W) (c : Nat) :
    (∃ m h', Container.WithoutKeys c [] h = .ok (m, h') ∧ m = c ∧ h' = h ∧
      h'.contents c = h.contents c) ∧
    (∀ ks, Container.Empty c h = .ok true →
      ∃ m h', Container.WithoutKeys c ks h = .ok (m, h') ∧ m = c ∧ h' = h ∧
        Container.Empty m h' = .ok true) :=
  ⟨⟨c, h, WithoutKeys_nil c h, rfl, rfl, rfl⟩,
    fun ks hemp => ⟨c, h, WithoutKeys_of_empty (contents_of_Empty hemp) ks, rfl, rfl, hemp⟩⟩

theorem WithoutKeys_noop_returns_receiver_witness :
    (∃ m h', Container.WithoutKeys 0 [] aContainerHeap = .ok (m, h') ∧ m = 0 ∧
      h' = aContainerHeap ∧ h'.contents 0 = aContainerHeap.contents 0) ∧
    Container.Empty 1 testHeap = .ok true ∧
    (∃ m h', Container.WithoutKeys 1 ["key1", "key2"] testHeap = .ok (m, h') ∧ m = 1 ∧
      h' = testHeap ∧ Container.Empty m h' = .ok true) :=
  ⟨(WithoutKeys_noop_returns_receiver aContainerHeap 0).1, rfl,
    (WithoutKeys_noop_returns_receiver testHeap 1).2 ["key1", "key2"] rfl⟩

theorem contents_Empty_new (h : Heap α W) : (Empty h).2.contents (Empty h).1 = .ok [] := by
  simp [Empty, Heap.alloc, Heap.contents, Heap.container, Heap.mapAt]

/-- C12: `WithKeys` in its two degenerate cases. With no keys it returns, for
every receiver `c` of every heap (empty or not), a container that is new (its
address is not one of the heap before the call, so it is not the receiver) and
has no entry: `Empty()` is true and every `Get` is not found. On an empty
receiver with a non-empty list of keys it returns the receiver itself, which is
empty, and leaves the heap as it was. -/
theorem WithKeys_degenerate (h : Heap α W) (c : Nat) :
    (∃ m h', Container.WithKeys c [] h = .ok (m, h') ∧ h.objs.length ≤ m ∧
      (c < h.objs.length → m ≠ c) ∧
      Container.Empty m h' = .ok true ∧
      (∀ k, Container.Get m k h' = .ok (none, false))) ∧
    (∀ ks, ks ≠ [] → Container.Empty c h = .ok true →
      ∃ m h', Container.WithKeys c ks h = .ok (m, h') ∧ m = c ∧ h' = h ∧
        Container.Empty m h' = .ok true) := by
  refine ⟨⟨(Empty h).1, (Empty h).2, WithKeys_nil c h, ?_, ?_, ?_, ?_⟩, ?_⟩
  · exact Nat.le_refl _
  · intro hc
    exact Nat.ne_of_gt hc
  · rw [Empty_eq (contents_Empty_new h)]
    rfl
  · intro k
    rw [Get_eq (contents_Empty_new h)]
    rfl
  · intro ks hks hemp
    exact ⟨c, h, WithKeys_of_empty (contents_of_Empty hemp) hks, rfl, rfl, hemp⟩

theorem WithKeys_degenerate_witness :
    0 < aContainerHeap.objs.length ∧
    (∃ m h', Container.WithKeys 0 [] aContainerHeap = .ok (m, h') ∧
      aContainerHeap.objs.length ≤ m ∧ m ≠ 0 ∧ Container.Empty m h' = .ok true ∧
      (∀ k, Container.Get m k h' = .ok (none, false))) ∧
    ["key1", "key2"] ≠ [] ∧ Container.Empty 1 testHeap = .ok true ∧
    (∃ m h', Container.WithKeys 1 ["key1", "key2"] testHeap = .ok (m, h') ∧ m = 1 ∧
      h' = testHeap ∧ Container.Empty m h' = .ok true) :=
  ⟨by decide,
    (match (WithKeys_degenerate aContainerHeap 0).1 with
      | ⟨m, h', hw, hfresh, hne, hemp, hget⟩ =>
        ⟨m, h', hw, hfresh, hne (by decide), hemp, hget⟩),
    by decide, rfl,
    (WithKeys_degenerate testHeap 1).2 ["key1", "key2"] (by decide) rfl⟩

end metadata

namespace metadata

variable {α W : Type}

theorem GoMap.foldl_slice_append (m : GoMap α) :
    ∀ acc : List String,
      m.foldl (fun (keys : GoSlice) e => keys.append e.1) (some acc) = some (acc ++ m.keys) := by
  induction m with
  | nil => intro acc; simp [GoMap.keys]
  | cons e m ih =>
    intro acc
    have hstep : GoSlice.append (some acc) e.1 = some (acc ++ [e.1]) := rfl
    rw [List.foldl_cons, hstep, ih]
    simp [GoMap.keys]

theorem KeysSlice_eq {h : Heap α W} {c : Nat} {m : GoMap α} (hc : h.contents c = .ok m) :
    Container.KeysSlice c h = .ok (some m.keys) := by
  obtain ⟨o, ho, hm⟩ := Heap.contents_inv hc
  cases m with
  | nil =>
    simp [Container.KeysSlice, Empty_eq hc, bind, Except.bind, pure, Except.pure, GoMap.keys]
  | cons e m =>
    have hfold := GoMap.foldl_slice_append (e :: m) []
    simp only [List.nil_append] at hfold
    simp [Container.KeysSlice, Empty_eq hc, bind, Except.bind, ho, hm, pure, Except.pure]
    simpa using hfold

/-- C13: `c.Keys()` lists the keys present in `c`, each once and nothing else: `k`
occurs in it iff `c.Get(k)` is found, it has no duplicates and its length is the
number of entries of `c`; the slice is never nil, on an empty container it is
empty, and `c.Empty()` is true iff it has length 0. -/
theorem Keys_lists_entries_once (h : Heap α W) (hwf : h.WF) (c : Nat)
    (hc : c < h.objs.length) :
    ∃ ks m, Container.Keys c h = .ok ks ∧ h.contents c = .ok m ∧
      (∀ k, k ∈ ks ↔ ∃ x, Container.Get c k h = .ok (x, true)) ∧
      ks.Nodup ∧ ks.length = m.length ∧
      Container.KeysSlice c h = .ok (some ks) ∧
      (Container.Empty c h = .ok true → ks = []) ∧
      (Container.Empty c h = .ok true ↔ ks.length = 0) := by
  obtain ⟨m, hm, hnd⟩ := hwf.contents_ok hc
  refine ⟨m.keys, m, Keys_eq hm, hm, ?_, hnd, by simp [GoMap.keys], KeysSlice_eq hm, ?_, ?_⟩
  · intro k
    rw [Get_eq hm, ← GoMap.index_snd_iff m k]
    constructor
    · intro hk
      refine ⟨(m.index k).1, ?_⟩
      rw [← hk]
    · rintro ⟨x, hx⟩
      have := Except.ok.inj hx
      rw [this]
  · intro hemp
    have hnil := contents_of_Empty hemp
    rw [hm] at hnil
    cases hnil
    rfl
  · rw [Empty_eq hm]
    cases m with
    | nil => simp [GoMap.keys]
    | cons e m => simp [GoMap.keys]

theorem Keys_lists_entries_once_witness :
    testHeap.WF ∧ 0 < testHeap.objs.length ∧
    ∃ ks m, Container.Keys 0 testHeap = .ok ks ∧ testHeap.contents 0 = .ok m ∧
      (∀ k, k ∈ ks ↔ ∃ x, Container.Get 0 k testHeap = .ok (x, true)) ∧
      ks.Nodup ∧ ks.length = m.length ∧
      Container.KeysSlice 0 testHeap = .ok (some ks) ∧
      (Container.Empty 0 testHeap = .ok true → ks = []) ∧
      (Container.Empty 0 testHeap = .ok true ↔ ks.length = 0) :=
  ⟨testHeap_WF, by decide, Keys_lists_entries_once testHeap testHeap_WF 0 (by decide)⟩

end metadata

namespace metadata

variable {α W : Type}

/-! ### Totality -/

theorem Heap.WF.wf_push {h : Heap α W} (hwf : h.WF) {m : GoMap α} (hm : m.keys.Nodup) :
    (h.push m).WF := by
  obtain ⟨h1, h2⟩ := hwf
  constructor
  · intro m' hm'
    simp only [Heap.push, List.mem_append, List.mem_singleton] at hm'
    rcases hm' with hm' | rfl
    · exact h1 m' hm'
    · exact hm
  · intro o ho a ha
    simp only [Heap.push, List.mem_append, List.mem_singleton, List.length_append,
      List.length_singleton] at ho ⊢
    rcases ho with ho | rfl
    · exact Nat.lt_succ_of_lt (h2 o ho a ha)
    · simp only [Option.mem_def, Option.some.injEq] at ha
      omega

theorem Heap.WF.alloc_nil {h : Heap α W} (hwf : h.WF) : (h.alloc ⟨none⟩).2.WF := by
  obtain ⟨h1, h2⟩ := hwf
  constructor
  · exact h1
  · intro o ho a ha
    simp only [Heap.alloc, List.mem_append, List.mem_singleton] at ho ⊢
    rcases ho with ho | rfl
    · exact h2 o ho a ha
    · simp at ha

theorem Heap.WF.wf_invoke {h : Heap α W} (hwf : h.WF) (s : Supplier α W) :
    (h.invoke s).2.WF := hwf

theorem Heap.WF.mapAt_ok {h : Heap α W} (hwf : h.WF) {r : Option Nat}
    (hr : ∀ a ∈ r, a < h.maps.length) : ∃ es, h.mapAt r = .ok es ∧ es.keys.Nodup := by
  cases r with
  | none => exact ⟨[], rfl, by simp [GoMap.keys]⟩
  | some a =>
    have ha : a < h.maps.length := hr a rfl
    exact ⟨h.maps[a], (hwf.mapAt_some (List.getElem?_eq_getElem ha)).1,
      (hwf.mapAt_some (List.getElem?_eq_getElem ha)).2⟩

theorem GoMap.nodup_keys_foldl_remove (ks : List String) (acc : GoMap α)
    (h : acc.keys.Nodup) :
    (ks.foldl (fun (acc : GoMap α) k => acc.remove k) acc).keys.Nodup := by
  rw [GoMap.keys_foldl_remove]
  exact h.filter _

theorem GoMap.nodup_keys_foldl_project (m : GoMap α) (ks : List String) :
    ∀ acc : GoMap α, acc.keys.Nodup →
      (ks.foldl (fun (acc : GoMap α) k => acc.assign k (m.index k).1) acc).keys.Nodup := by
  induction ks with
  | nil => intro acc h; exact h
  | cons k ks ih =>
    intro acc h
    rw [List.foldl_cons]
    exact ih _ (GoMap.nodup_keys_assign acc k _ h)

theorem Returns.returns_push {h : Heap α W} (hwf : h.WF) {m : GoMap α} (hm : m.keys.Nodup)
    {res : Except Fault (Nat × Heap α W)} (hres : res = .ok (h.objs.length, h.push m)) :
    Returns h res :=
  ⟨_, _, hres, hwf.wf_push hm, by simp [Heap.push], by simp [Heap.push], by simp [Heap.push]⟩

theorem Returns.returns_same {h : Heap α W} (hwf : h.WF) {c : Nat} (hc : c < h.objs.length)
    {res : Except Fault (Nat × Heap α W)} (hres : res = .ok (c, h)) : Returns h res :=
  ⟨_, _, hres, hwf, hc, Nat.le_refl _, Nat.le_refl _⟩

theorem With_eq (k : String) (v : Value α) (h : Heap α W) :
    With k v h = .ok (h.objs.length, h.push [(k, v)]) := by
  have hc := Heap.container_push_new h ([] : GoMap α)
  have hs := Heap.store_push_new h [] k v
  simp only [Heap.push] at hc hs
  simp only [With, Heap.makeMap, Heap.alloc, bind, Except.bind, pure, Except.pure, hc, hs,
    Heap.push, GoMap.assign]

theorem From_returns {h : Heap α W} (hwf : h.WF) {source : Option Nat}
    (hsrc : ∀ a ∈ source, a < h.maps.length) : Returns h (From source h) := by
  obtain ⟨src, hs, hnd⟩ := hwf.mapAt_ok hsrc
  refine Returns.returns_push hwf hnd ?_
  rw [From_eq hs, GoMap.foldl_assign_nil src hnd]

theorem And_returns {h : Heap α W} (hwf : h.WF) {c : Nat} (hc : c < h.objs.length)
    (k : String) (v : Value α) : Returns h (Container.And c k v h) := by
  obtain ⟨m, hm, hnd⟩ := hwf.contents_ok hc
  refine Returns.returns_push hwf (GoMap.nodup_keys_assign m k v hnd) ?_
  rw [And_eq hm, GoMap.foldl_assign_nil m hnd]

theorem AndIfNotPresent_returns {h : Heap α W} (hwf : h.WF) {c : Nat}
    (hc : c < h.objs.length) (k : String) (s : Supplier α W) :
    Returns h (Container.AndIfNotPresent c k s h) := by
  obtain ⟨m, hm, hnd⟩ := hwf.contents_ok hc
  cases hk : (m.index k).2 with
  | true => exact Returns.returns_same hwf hc (AndIfNotPresent_of_present hm hk s)
  | false =>
    rw [AndIfNotPresent_of_absent hm hk s]
    exact And_returns (hwf.wf_invoke s) hc k _

theorem MergedWith_returns {h : Heap α W} (hwf : h.WF) {c : Nat} (hc : c < h.objs.length)
    {entries : Option Nat} (hent : ∀ a ∈ entries, a < h.maps.length) :
    Returns h (Container.MergedWith c entries h) := by
  obtain ⟨m, hm, hnd⟩ := hwf.contents_ok hc
  obtain ⟨es, hes, -⟩ := hwf.mapAt_ok hent
  by_cases hnil : es = []
  · subst hnil
    exact Returns.returns_same hwf hc (MergedWith_of_nil hes c)
  · refine Returns.returns_push hwf ?_ (MergedWith_eq hm hes hnil)
    exact GoMap.nodup_keys_foldl_assign es _
      (GoMap.nodup_keys_foldl_assign m [] (by simp [GoMap.keys]))

theorem WithKeys_returns {h : Heap α W} (hwf : h.WF) {c : Nat} (hc : c < h.objs.length)
    (ks : List String) : Returns h (Container.WithKeys c ks h) := by
  obtain ⟨m, hm, hnd⟩ := hwf.contents_ok hc
  by_cases hks : ks = []
  · subst hks
    exact ⟨_, _, WithKeys_nil c h, hwf.alloc_nil, by simp [Empty, Heap.alloc],
      by simp [Empty, Heap.alloc], by simp [Empty, Heap.alloc]⟩
  · by_cases hmn : m = []
    · subst hmn
      exact Returns.returns_same hwf hc (WithKeys_of_empty hm hks)
    · exact Returns.returns_push hwf (GoMap.nodup_keys_foldl_project m ks [] (by simp [GoMap.keys]))
        (WithKeys_eq hm hmn hks)

theorem WithoutKeys_returns {h : Heap α W} (hwf : h.WF) {c : Nat} (hc : c < h.objs.length)
    (ks : List String) : Returns h (Container.WithoutKeys c ks h) := by
  obtain ⟨m, hm, hnd⟩ := hwf.contents_ok hc
  by_cases hks : ks = []
  · subst hks
    exact Returns.returns_same hwf hc (WithoutKeys_nil c h)
  · by_cases hmn : m = []
    · subst hmn
      exact Returns.returns_same hwf hc (WithoutKeys_of_empty hm ks)
    · refine Returns.returns_push hwf ?_ (WithoutKeys_eq hm hmn hks)
      exact GoMap.nodup_keys_foldl_remove ks _
        (GoMap.nodup_keys_foldl_assign m [] (by simp [GoMap.keys]))

/-- C14: every operation is total. A heap without containers whose map objects
have distinct keys is well formed; on a well-formed heap, the one without
containers included, the constructors `Empty`, `With` and `From` (of nil or of
an existing mapping) return a container of a heap that is again well formed,
and so do the mutators, so every container reachable from the constructors is a
container of a well-formed heap; and on every container of a well-formed heap,
the one of `Empty()` with its nil map included, `Empty`, `Get`, `Keys`, `And`,
`AndIfNotPresent`, `MergedWith` (with nil or an existing mapping), `WithKeys`
and `WithoutKeys` (with any list of keys, the empty one included) return a
result: none faults, and in particular none writes to a nil map. -/
theorem operations_total (h : Heap α W) :
    (h.objs = [] → (∀ m ∈ h.maps, m.keys.Nodup) → h.WF) ∧
    (h.WF →
      Returns h (.ok (Empty h)) ∧
      (∀ k v, Returns h (With k v h)) ∧
      (∀ source, (∀ a ∈ source, a < h.maps.length) → Returns h (From source h)) ∧
      ∀ c, c < h.objs.length →
        (∃ b, Container.Empty c h = .ok b) ∧
        (∀ k, ∃ r, Container.Get c k h = .ok r) ∧
        (∃ l, Container.Keys c h = .ok l) ∧
        (∀ k v, Returns h (Container.And c k v h)) ∧
        (∀ k s, Returns h (Container.AndIfNotPresent c k s h)) ∧
        (∀ entries, (∀ a ∈ entries, a < h.maps.length) →
          Returns h (Container.MergedWith c entries h)) ∧
        (∀ ks, Returns h (Container.WithKeys c ks h)) ∧
        (∀ ks, Returns h (Container.WithoutKeys c ks h))) := by
  refine ⟨?_, ?_⟩
  · intro hobjs hmaps
    refine ⟨hmaps, ?_⟩
    intro o ho
    rw [hobjs] at ho
    cases ho
  · intro hwf
    refine ⟨?_, ?_, fun source hsrc => From_returns hwf hsrc, ?_⟩
    · exact ⟨_, _, rfl, hwf.alloc_nil, by simp [Empty, Heap.alloc],
        by simp [Empty, Heap.alloc], by simp [Empty, Heap.alloc]⟩
    · intro k v
      exact Returns.returns_push hwf (by simp [GoMap.keys]) (With_eq k v h)
    · intro c hc
      obtain ⟨m, hm, -⟩ := hwf.contents_ok hc
      exact ⟨⟨_, Empty_eq hm⟩, fun k => ⟨_, Get_eq hm k⟩, ⟨_, Keys_eq hm⟩,
        fun k v => And_returns hwf hc k v, fun k s => AndIfNotPresent_returns hwf hc k s,
        fun entries hent => MergedWith_returns hwf hc hent,
        fun ks => WithKeys_returns hwf hc ks, fun ks => WithoutKeys_returns hwf hc ks⟩

theorem operations_total_witness :
    scenarioHeap.objs = [] ∧ (∀ m ∈ scenarioHeap.maps, m.keys.Nodup) ∧ scenarioHeap.WF ∧
    Returns scenarioHeap (.ok (Empty scenarioHeap)) ∧
    Returns scenarioHeap (With "aKey" none scenarioHeap) ∧
    (∀ a ∈ (none : Option Nat), a < scenarioHeap.maps.length) ∧
    Returns scenarioHeap (From none scenarioHeap) ∧
    (∀ a ∈ some 0, a < scenarioHeap.maps.length) ∧
    Returns scenarioHeap (From (some 0) scenarioHeap) ∧
    testHeap.WF ∧ 1 < testHeap.objs.length ∧ (∀ a ∈ some 3, a < testHeap.maps.length) ∧
    ((∃ b, Container.Empty 1 testHeap = .ok b) ∧
      (∀ k, ∃ r, Container.Get 1 k testHeap = .ok r) ∧
      (∃ l, Container.Keys 1 testHeap = .ok l) ∧
      (∀ k v, Returns testHeap (Container.And 1 k v testHeap)) ∧
      (∀ k s, Returns testHeap (Container.AndIfNotPresent 1 k s testHeap)) ∧
      (∀ entries, (∀ a ∈ entries, a < testHeap.maps.length) →
        Returns testHeap (Container.MergedWith 1 entries testHeap)) ∧
      (∀ ks, Returns testHeap (Container.WithKeys 1 ks testHeap)) ∧
      (∀ ks, Returns testHeap (Container.WithoutKeys 1 ks testHeap))) ∧
    Returns testHeap (Container.MergedWith 1 (some 3) testHeap) :=
  have hnd : ∀ m ∈ scenarioHeap.maps, m.keys.Nodup := by
    intro m hm
    simp only [scenarioHeap, List.mem_singleton] at hm
    subst hm
    decide
  have hwf : scenarioHeap.WF := (operations_total scenarioHeap).1 rfl hnd
  ⟨rfl, hnd, hwf,
    ((operations_total scenarioHeap).2 hwf).1,
    ((operations_total scenarioHeap).2 hwf).2.1 "aKey" none,
    by simp,
    ((operations_total scenarioHeap).2 hwf).2.2.1 none (by simp),
    by decide,
    ((operations_total scenarioHeap).2 hwf).2.2.1 (some 0) (by decide),
    testHeap_WF, by decide, by decide,
    ((operations_total testHeap).2 testHeap_WF).2.2.2 1 (by decide),
    (((operations_total testHeap).2 testHeap_WF).2.2.2 1 (by decide)).2.2.2.2.2.1 (some 3)
      (by decide)⟩

end metadata

namespace metadata

variable {α W : Type}

theorem Heap.container_push_inv {h : Heap α W} {m : GoMap α} {c : Nat} {o : Container}
    (hne : c ≠ h.objs.length) (hc : (h.push m).container c = .ok o) : o ∈ h.objs := by
  unfold Heap.container at hc
  cases hget : (h.push m).objs[c]? with
  | none => simp [hget] at hc
  | some o' =>
    simp only [hget] at hc
    cases hc
    have hlt : c < (h.push m).objs.length := (List.getElem?_eq_some_iff.mp hget).1
    simp only [Heap.push, List.length_append, List.length_singleton] at hlt
    have hlt' : c < h.objs.length := by omega
    simp only [Heap.push, List.getElem?_append_left hlt'] at hget
    obtain ⟨_, heq⟩ := List.getElem?_eq_some_iff.mp hget
    exact heq ▸ List.getElem_mem hlt'

/-- C15: `c.And(k, v)` never returns the receiver: the container it returns has an
address that the heap did not have before the call, so it differs from `c`, and
its `data` is a map object that did not exist before the call and to which no
other container refers; this holds for every `c`, `k` and `v`, also when `c`
already maps `k` to `v`. -/
theorem And_returns_new_instance (h : Heap α W) (hwf : h.WF) (c : Nat)
    (hc : c < h.objs.length) (k : String) (v : Value α) :
    ∃ m h' a, Container.And c k v h = .ok (m, h') ∧ m ≠ c ∧ h.objs.length ≤ m ∧
      h'.container m = .ok ⟨some a⟩ ∧ h.maps.length ≤ a ∧
      (∀ c' o, c' ≠ m → h'.container c' = .ok o → o.data ≠ some a) := by
  obtain ⟨m0, hm0, hnd⟩ := hwf.contents_ok hc
  refine ⟨h.objs.length, h.push _, h.maps.length, And_eq hm0 k v, Nat.ne_of_gt hc,
    Nat.le_refl _, Heap.container_push_new h _, Nat.le_refl _, ?_⟩
  intro c' o hne hco hdata
  have hmem := Heap.container_push_inv hne hco
  have hlt := hwf.2 o hmem h.maps.length (by simp [hdata])
  exact Nat.lt_irrefl _ hlt

theorem And_returns_new_instance_witness :
    testHeap.WF ∧ 0 < testHeap.objs.length ∧
    Container.Get 0 "key1" testHeap = .ok (some (.inl "value1"), true) ∧
    ∃ m h' a, Container.And 0 "key1" (some (.inl "value1")) testHeap = .ok (m, h') ∧
      m ≠ 0 ∧ testHeap.objs.length ≤ m ∧
      h'.container m = .ok ⟨some a⟩ ∧ testHeap.maps.length ≤ a ∧
      (∀ c' o, c' ≠ m → h'.container c' = .ok o → o.data ≠ some a) :=
  ⟨testHeap_WF, by decide, rfl,
    And_returns_new_instance testHeap testHeap_WF 0 (by decide) "key1"
      (some (.inl "value1"))⟩

/-- C16: for every key `k` and value `v`, the nil value included, `With(k, v)` is
a container with exactly one entry: `Get(k) = (v, true)`, `Empty()` is false,
`Get(k')` is not found for every other key `k'`, and `Keys()` is `[k]`. -/
theorem With_single_entry (h : Heap α W) (k : String) (v : Value α) :
    ∃ c h', With k v h = .ok (c, h') ∧
      Container.Get c k h' = .ok (v, true) ∧
      Container.Empty c h' = .ok false ∧
      (∀ k', k' ≠ k → Container.Get c k' h' = .ok (none, false)) ∧
      Container.Keys c h' = .ok [k] := by
  have hnew := Heap.contents_push_new h [(k, v)]
  refine ⟨_, _, With_eq k v h, ?_, ?_, ?_, ?_⟩
  · rw [Get_eq hnew]
    simp [GoMap.index]
  · rw [Empty_eq hnew]
    rfl
  · intro k' hne
    rw [Get_eq hnew]
    simp [GoMap.index, Ne.symm hne]
  · rw [Keys_eq hnew]
    rfl

theorem With_single_entry_witness :
    ∃ c h', With "aKey" (none : Value TestValue) testHeap = .ok (c, h') ∧
      Container.Get c "aKey" h' = .ok (none, true) ∧
      Container.Empty c h' = .ok false ∧
      (∀ k', k' ≠ "aKey" → Container.Get c k' h' = .ok (none, false)) ∧
      Container.Keys c h' = .ok ["aKey"] :=
  With_single_entry testHeap "aKey" none

/-- C17 (evaluation of the scenario as stated): for
`c = From({"key1": "value1"}).And("key3", "value3").And("key4", 4)`, whose keys
are `key1`, `key3` and `key4`, `c.WithoutKeys("key1", "key3")` has the single key
`key4`; `key2` is not found in it. -/
theorem scenario_WithoutKeys_has_no_key2 :
    ∃ c h m h', scenario (some 0) scenarioHeap = .ok (c, h) ∧
      Container.Keys c h = .ok ["key1", "key3", "key4"] ∧
      Container.WithoutKeys c ["key1", "key3"] h = .ok (m, h') ∧
      Container.Keys m h' = .ok ["key4"] ∧
      Container.Get m "key2" h' = .ok (none, false) :=
  ⟨_, _, _, _, rfl, rfl, rfl, rfl, rfl⟩

/-- C17 (amended): for `c = From({"key1": "value1"}).And("key3", "value3").And("key4", 4)`,
`c.WithKeys("key1", "key3")` has exactly the 2 keys `key1`, with value `"value1"`,
and `key3`, with value `"value3"`, and `c.WithoutKeys("key1", "key3")` has exactly
the remaining key `key4` with its value 4. When `c` is built in the same way from
`{"key1": "value1", "key2": 2}`, as in the tests, `c.WithoutKeys("key1", "key3")`
has exactly the keys `key2` and `key4` with their values 2 and 4. -/
theorem scenario_projections :
    (∃ c h, scenario (some 0) scenarioHeap = .ok (c, h) ∧
      (∃ m h', Container.WithKeys c ["key1", "key3"] h = .ok (m, h') ∧
        Container.Keys m h' = .ok ["key1", "key3"] ∧
        Container.Get m "key1" h' = .ok (some (.inl "value1"), true) ∧
        Container.Get m "key3" h' = .ok (some (.inl "value3"), true)) ∧
      (∃ m h', Container.WithoutKeys c ["key1", "key3"] h = .ok (m, h') ∧
        Container.Keys m h' = .ok ["key4"] ∧
        Container.Get m "key4" h' = .ok (some (.inr 4), true))) ∧
    (∃ c h, scenario (some 0) testHeap = .ok (c, h) ∧
      (∃ m h', Container.WithKeys c ["key1", "key3"] h = .ok (m, h') ∧
        Container.Keys m h' = .ok ["key1", "key3"] ∧
        Container.Get m "key1" h' = .ok (some (.inl "value1"), true) ∧
        Container.Get m "key3" h' = .ok (some (.inl "value3"), true)) ∧
      (∃ m h', Container.WithoutKeys c ["key1", "key3"] h = .ok (m, h') ∧
        Container.Keys m h' = .ok ["key2", "key4"] ∧
        Container.Get m "key2" h' = .ok (some (.inr 2), true) ∧
        Container.Get m "key4" h' = .ok (some (.inr 4), true))) :=
  ⟨⟨_, _, rfl, ⟨_, _, rfl, rfl, rfl, rfl⟩, ⟨_, _, rfl, rfl, rfl⟩⟩,
    ⟨_, _, rfl, ⟨_, _, rfl, rfl, rfl, rfl⟩, ⟨_, _, rfl, rfl, rfl, rfl⟩⟩⟩

end metadata

namespace domain

variable {E : Type}

/-- C18 (what the code does): `DomainEvents` declares a nil slice and copies into
it, and `copy` moves `min(len(dst), len(src))` = 0 elements, so it returns the
empty sequence for every aggregate root; after `RegisterEvent(e)` the root holds
`e` as its last event and `DomainEvents()` is still empty. -/
theorem DomainEvents_returns_no_event (ar : AggregateRoot E) (e : E) :
    ar.DomainEvents = [] ∧
    (ar.RegisterEvent e).2.events = ar.events ++ [e] ∧
    (ar.RegisterEvent e).2.DomainEvents = [] ∧
    (ar.RegisterEvent e).2.DomainEvents ≠ (ar.RegisterEvent e).2.events := by
  have h0 : ∀ r : AggregateRoot E, r.DomainEvents = [] := by
    intro r
    simp [AggregateRoot.DomainEvents, copy]
  refine ⟨h0 ar, rfl, h0 _, ?_⟩
  rw [h0]
  simp [AggregateRoot.RegisterEvent]

end domain

namespace assert

/-- C19: `Condition(condition, message)` returns nil iff `condition` is true; when
`condition` is false it returns an error `e` with `IsArgumentError(e)` true and
`e.Error()` equal to `message`. -/
theorem Condition_nil_iff (condition : Bool) (message : String) :
    (Condition condition message = .nil ↔ condition = true) ∧
    IsArgumentError (Condition false message) = true ∧
    (Condition false message).Error = some message := by
  refine ⟨?_, rfl, rfl⟩
  cases condition <;> simp [Condition]

/-- C20: `State(s, m)` returns nil iff `s` is true and `StateNot(s, m)` returns nil
iff `s` is false; every non-nil error `e` that either returns has `IsStateError(e)`
true, `IsArgumentError(e)` false and `e.Error()` equal to `m`. -/
theorem State_nil_iff (s : Bool) (m : String) :
    (State s m = .nil ↔ s = true) ∧ (StateNot s m = .nil ↔ s = false) ∧
    ∀ e, (e = State s m ∨ e = StateNot s m) → e ≠ .nil →
      IsStateError e = true ∧ IsArgumentError e = false ∧ e.Error = some m := by
  refine ⟨?_, ?_, ?_⟩
  · cases s <;> simp [State]
  · cases s <;> simp [StateNot]
  · intro e he hne
    cases s <;> rcases he with rfl | rfl <;>
      first
        | exact absurd rfl hne
        | exact ⟨rfl, rfl, rfl⟩

theorem State_nil_iff_witness :
    (State false "message" = State false "message" ∨
        State false "message" = StateNot false "message") ∧
    State false "message" ≠ .nil ∧
    IsStateError (State false "message") = true ∧
    IsArgumentError (State false "message") = false ∧
    (State false "message").Error = some "message" :=
  ⟨Or.inl rfl, by decide,
    (State_nil_iff false "message").2.2 (State false "message") (Or.inl rfl) (by decide)⟩

end assert

namespace assert

/-- C21 (what the code does): `MaxLength` compares `len`, the number of bytes of
the trimmed value, with `maxLength`: it returns nil iff that number of bytes is
`maxLength` or less. The trimmed value `"é"` has 1 character and 2 bytes, and
`MaxLength("é", 1, "argument")` returns the argument error
`argument must be 1 characters or less`. -/
theorem MaxLength_counts_bytes (value : String) (maxLength : Int) (argName : String) :
    (MaxLength value maxLength argName = .nil ↔ (len (TrimSpace value) : Int) ≤ maxLength) ∧
    charCount (TrimSpace "é") = 1 ∧ len (TrimSpace "é") = 2 ∧
    MaxLength "é" 1 "argument" = .argument ⟨"argument must be 1 characters or less"⟩ := by
  refine ⟨?_, by decide, by decide, by decide⟩
  unfold MaxLength
  by_cases hgt : (len (TrimSpace value) : Int) > maxLength
  · simp [hgt]
  · simp [hgt, Int.not_lt.mp hgt]

/-- C22 (what the code does): `IntMin(value, min, argName)` returns nil iff
`value >= min`, and when `value < min` it returns an argument error whose message
is `<argName> must greater or equal than <min>`, without the word `be` of the
format that its doc comment documents: `IntMin(3, 4, "argument")` has the message
`argument must greater or equal than 4`. -/
theorem IntMin_message_lacks_be (value min : Int) (argName : String) :
    (IntMin value min argName = .nil ↔ min ≤ value) ∧
    IntMin value min argName =
      (if value < min then
        .argument ⟨argName ++ " must greater or equal than " ++ formatInt min⟩
      else .nil) ∧
    IntMin 3 4 "argument" = .argument ⟨"argument must greater or equal than 4"⟩ ∧
    IntMin.documentedMessage 4 "argument" = "argument must be greater or equal than 4" ∧
    (IntMin 3 4 "argument").Error ≠ some (IntMin.documentedMessage 4 "argument") := by
  refine ⟨?_, rfl, by decide, by decide, by decide⟩
  unfold IntMin
  by_cases hlt : value < min
  · simp [hlt]
  · simp [hlt, Int.not_lt.mp hlt]

/-- C25: the range validators are the conjunction of the one-sided ones:
`IntRange(value, min, max, _)` returns nil iff `IntMin(value, min, _)` and
`IntMax(value, max, _)` both do, and `LengthBetween(s, min, max, _)` returns nil
iff `MinLength(s, min, _)` and `MaxLength(s, max, _)` both do; when `min > max`
the range validators reject every input. -/
theorem range_validators_are_conjunctions (value min max : Int) (s : String)
    (argName argName1 argName2 : String) :
    (IntRange value min max argName = .nil ↔
      IntMin value min argName1 = .nil ∧ IntMax value max argName2 = .nil) ∧
    (LengthBetween s min max argName = .nil ↔
      MinLength s min argName1 = .nil ∧ MaxLength s max argName2 = .nil) ∧
    (max < min → IntRange value min max argName ≠ .nil ∧
      LengthBetween s min max argName ≠ .nil) := by
  have hint : ∀ (x lo hi : Int) (e1 e2 e3 : GoError), e1 ≠ .nil → e2 ≠ .nil → e3 ≠ .nil →
      (((if (decide (x < lo) || decide (x > hi)) = true then e1 else GoError.nil) = .nil) ↔
        ((if x < lo then e2 else GoError.nil) = .nil ∧
          (if x > hi then e3 else GoError.nil) = .nil)) := by
    intro x lo hi e1 e2 e3 h1 h2 h3
    by_cases ha : x < lo <;> by_cases hb : x > hi <;> simp [ha, hb, h1, h2, h3]
  have hrej : ∀ (x lo hi : Int) (e1 : GoError), e1 ≠ .nil → hi < lo →
      (if (decide (x < lo) || decide (x > hi)) = true then e1 else GoError.nil) ≠ .nil := by
    intro x lo hi e1 h1 hlt
    by_cases ha : x < lo
    · simp [ha, h1]
    · have hb : x > hi := by omega
      simp [hb, h1]
  refine ⟨?_, ?_, ?_⟩
  · exact hint value min max _ _ _ (by simp) (by simp) (by simp)
  · exact hint (len (TrimSpace s)) min max _ _ _ (by simp) (by simp) (by simp)
  · intro hlt
    exact ⟨hrej value min max _ (by simp) hlt,
      hrej (len (TrimSpace s)) min max _ (by simp) hlt⟩

theorem range_validators_are_conjunctions_witness :
    (4 : Int) < 5 ∧ IntRange 3 5 4 "argument" ≠ .nil ∧
    LengthBetween "foo" 5 4 "argument" ≠ .nil :=
  ⟨by decide,
    (range_validators_are_conjunctions 3 5 4 "foo" "argument" "argument" "argument").2.2
      (by decide)⟩

end assert

namespace metadata

variable {α W : Type}

/-! ### Order of enumeration -/

theorem GoMap.index_eq_of_mem (m : GoMap α) (k : String) (v : Value α)
    (hnd : m.keys.Nodup) (hmem : (k, v) ∈ m) : m.index k = (v, true) := by
  induction m with
  | nil => simp at hmem
  | cons e m ih =>
    obtain ⟨k0, v0⟩ := e
    simp only [GoMap.keys, List.map_cons, List.nodup_cons] at hnd
    rcases List.mem_cons.mp hmem with heq | hin
    · cases heq
      simp [GoMap.index]
    · have hk : k ∈ GoMap.keys m := List.mem_map.mpr ⟨(k, v), hin, rfl⟩
      have hne : ¬ k0 = k := fun h => hnd.1 (h ▸ hk)
      simpa [GoMap.index, hne] using ih hnd.2 hin

theorem GoMap.exists_mem_of_mem_keys (m : GoMap α) (k : String) (hk : k ∈ m.keys) :
    ∃ v, (k, v) ∈ m := by
  obtain ⟨e, he, hfst⟩ := List.mem_map.mp hk
  obtain ⟨k0, v0⟩ := e
  cases hfst
  exact ⟨v0, he⟩

theorem GoMap.keys_perm {p m : GoMap α} (hp : p.Perm m) : p.keys.Perm m.keys :=
  hp.map Prod.fst

theorem GoMap.index_perm {p m : GoMap α} (hp : p.Perm m) (hnd : m.keys.Nodup)
    (k : String) : p.index k = m.index k := by
  have hndp : p.keys.Nodup := (GoMap.keys_perm hp).nodup_iff.mpr hnd
  by_cases hk : k ∈ m.keys
  · obtain ⟨v, hv⟩ := GoMap.exists_mem_of_mem_keys m k hk
    rw [GoMap.index_eq_of_mem m k v hnd hv,
      GoMap.index_eq_of_mem p k v hndp (hp.mem_iff.mpr hv)]
  · have hkp : k ∉ p.keys := fun h => hk ((GoMap.keys_perm hp).mem_iff.mp h)
    rw [GoMap.index_of_not_mem m k hk, GoMap.index_of_not_mem p k hkp]

theorem GoMap.index_foldl_assign_perm {p es m0' m0 : GoMap α} (hp : p.Perm es)
    (hm : m0'.Perm m0) (hes : es.keys.Nodup) (hm0 : m0.keys.Nodup) (k : String) :
    (p.foldl (fun (acc : GoMap α) e => acc.assign e.1 e.2) m0').index k
      = (es.foldl (fun (acc : GoMap α) e => acc.assign e.1 e.2) m0).index k := by
  have hndp : p.keys.Nodup := (GoMap.keys_perm hp).nodup_iff.mpr hes
  by_cases hk : k ∈ es.keys
  · have hkp : k ∈ p.keys := (GoMap.keys_perm hp).mem_iff.mpr hk
    rw [GoMap.index_foldl_assign_of_mem es k hes hk, GoMap.index_foldl_assign_of_mem p k hndp hkp,
      GoMap.index_perm hp hes k]
  · have hkp : k ∉ p.keys := fun h => hk ((GoMap.keys_perm hp).mem_iff.mp h)
    rw [GoMap.index_foldl_assign_of_not_mem es k hk, GoMap.index_foldl_assign_of_not_mem p k hkp,
      GoMap.index_perm hm hm0 k]

theorem GoMap.keys_foldl_assign_perm {p es m0' m0 : GoMap α} (hp : p.Perm es)
    (hm : m0'.Perm m0) (hm0 : m0.keys.Nodup) :
    (p.foldl (fun (acc : GoMap α) e => acc.assign e.1 e.2) m0').keys.Perm
      (es.foldl (fun (acc : GoMap α) e => acc.assign e.1 e.2) m0).keys := by
  have hm0' : m0'.keys.Nodup := (GoMap.keys_perm hm).nodup_iff.mpr hm0
  rw [List.perm_ext_iff_of_nodup (GoMap.nodup_keys_foldl_assign p m0' hm0')
    (GoMap.nodup_keys_foldl_assign es m0 hm0)]
  intro k
  rw [GoMap.mem_keys_foldl_assign, GoMap.mem_keys_foldl_assign,
    (GoMap.keys_perm hm).mem_iff, (GoMap.keys_perm hp).mem_iff]

theorem andChain_eq (p : GoMap α) :
    ∀ (c : Nat) (h : Heap α W) (m : GoMap α), h.WF → h.contents c = .ok m → m.keys.Nodup →
      ∃ c' h', andChain c p h = .ok (c', h') ∧
        h'.contents c' = .ok (p.foldl (fun (acc : GoMap α) e => acc.assign e.1 e.2) m) := by
  induction p with
  | nil =>
    intro c h m _ hm _
    exact ⟨c, h, rfl, hm⟩
  | cons e p ih =>
    intro c h m hwf hm hnd
    have hand := And_eq hm e.1 e.2
    rw [GoMap.foldl_assign_nil m hnd] at hand
    have hnd' := GoMap.nodup_keys_assign m e.1 e.2 hnd
    obtain ⟨c', h', hchain, hcont⟩ := ih h.objs.length (h.push (m.assign e.1 e.2))
      (m.assign e.1 e.2) (hwf.wf_push hnd') (Heap.contents_push_new h _) hnd'
    refine ⟨c', h', ?_, hcont⟩
    unfold andChain at hchain ⊢
    rw [List.foldlM_cons]
    simp only [hand, bind, Except.bind]
    exact hchain

theorem MergedWith_contents {h : Heap α W} {c : Nat} {m0 es : GoMap α}
    {entries : Option Nat} (hm : h.contents c = .ok m0) (hnd : m0.keys.Nodup)
    (hes : h.mapAt entries = .ok es) :
    ∃ m h', Container.MergedWith c entries h = .ok (m, h') ∧
      h'.contents m = .ok (es.foldl (fun (acc : GoMap α) e => acc.assign e.1 e.2) m0) := by
  by_cases hnil : es = []
  · subst hnil
    exact ⟨c, h, MergedWith_of_nil hes c, hm⟩
  · have hmerge := MergedWith_eq hm hes hnil
    rw [GoMap.foldl_assign_nil m0 hnd] at hmerge
    exact ⟨_, _, hmerge, Heap.contents_push_new h _⟩

theorem Heap.WF.wf_reorder {h : Heap α W} (hwf : h.WF) {a : Nat} {p es : GoMap α}
    (ha : h.maps[a]? = some es) (hp : p.Perm es) : (h.reorder a p).WF := by
  have hesnd := (hwf.mapAt_some ha).2
  constructor
  · intro m hm
    simp only [Heap.reorder] at hm
    rcases List.mem_or_eq_of_mem_set hm with hmem | rfl
    · exact hwf.1 m hmem
    · exact (GoMap.keys_perm hp).nodup_iff.mpr hesnd
  · intro o ho b hb
    simp only [Heap.reorder, List.length_set] at ho ⊢
    exact hwf.2 o ho b hb

theorem Heap.contents_reorder {h : Heap α W} {c a : Nat} {m0 p es : GoMap α}
    (hm : h.contents c = .ok m0) (ha : h.maps[a]? = some es) (hp : p.Perm es) :
    ∃ m0', (h.reorder a p).contents c = .ok m0' ∧ m0'.Perm m0 := by
  obtain ⟨o, ho, hmap⟩ := Heap.contents_inv hm
  have halt : a < h.maps.length := (List.getElem?_eq_some_iff.mp ha).1
  have hco : (h.reorder a p).container c = .ok o := ho
  have hcont : ∀ m1, (h.reorder a p).mapAt o.data = .ok m1 →
      (h.reorder a p).contents c = .ok m1 := by
    intro m1 h1
    simp only [Heap.contents, hco]
    exact h1
  cases hd : o.data with
  | none =>
    rw [hd] at hmap
    have hm0 : m0 = [] := by
      simp only [Heap.mapAt] at hmap
      cases hmap
      rfl
    subst hm0
    exact ⟨[], hcont [] (by rw [hd]; rfl), List.Perm.refl _⟩
  | some b =>
    rw [hd] at hmap
    by_cases hba : b = a
    · subst hba
      have hm0 : m0 = es := by
        simp only [Heap.mapAt, ha] at hmap
        cases hmap
        rfl
      subst hm0
      refine ⟨p, hcont p ?_, hp⟩
      rw [hd]
      simp [Heap.mapAt, Heap.reorder, List.getElem?_set_self halt]
    · refine ⟨m0, hcont m0 ?_, List.Perm.refl _⟩
      have hne : a ≠ b := fun e => hba e.symm
      have hget : (h.maps.set a p)[b]? = h.maps[b]? := List.getElem?_set_ne hne
      rw [hd]
      simp only [Heap.mapAt, Heap.reorder, hget]
      simpa [Heap.mapAt] using hmap

end metadata

namespace metadata

variable {α W : Type}

/-- C23: `c.MergedWith(e)` has the same contents as the chain
`c.And(k1, e[k1])...And(kn, e[kn])` over the entries of `e` taken in any order:
both return, every `Get` agrees on the two results and their key sets are the
same. The result does not depend on the order in which `e` is visited:
`MergedWith` on the heap where `e` enumerates its entries in another order
returns a container with the same `Get` for every key. -/
theorem MergedWith_agrees_with_And_chain (h : Heap α W) (hwf : h.WF) (c : Nat)
    (hc : c < h.objs.length) (entries : Option Nat)
    (hent : ∀ a ∈ entries, a < h.maps.length) (es p : GoMap α)
    (hes : h.mapAt entries = .ok es) (hp : p.Perm es) :
    ∃ m h1 m2 h2, Container.MergedWith c entries h = .ok (m, h1) ∧
      andChain c p h = .ok (m2, h2) ∧
      (∀ k, Container.Get m k h1 = Container.Get m2 k h2) ∧
      (∃ ks ks2, Container.Keys m h1 = .ok ks ∧ Container.Keys m2 h2 = .ok ks2 ∧
        ks.Perm ks2) ∧
      (∀ a, entries = some a →
        ∃ m3 h3, Container.MergedWith c (some a) (h.reorder a p) = .ok (m3, h3) ∧
          ∀ k, Container.Get m3 k h3 = Container.Get m k h1) := by
  obtain ⟨m0, hm0, hnd⟩ := hwf.contents_ok hc
  have hesnd : es.keys.Nodup := by
    obtain ⟨es', hes', hnd'⟩ := hwf.mapAt_ok hent
    rw [hes] at hes'
    cases hes'
    exact hnd'
  obtain ⟨m, h1, hmw, hc1⟩ := MergedWith_contents hm0 hnd hes
  obtain ⟨m2, h2, hch, hc2⟩ := andChain_eq p c h m0 hwf hm0 hnd
  refine ⟨m, h1, m2, h2, hmw, hch, ?_, ?_, ?_⟩
  · intro k
    rw [Get_eq hc1, Get_eq hc2,
      GoMap.index_foldl_assign_perm hp (List.Perm.refl m0) hesnd hnd k]
  · exact ⟨_, _, Keys_eq hc1, Keys_eq hc2,
      (GoMap.keys_foldl_assign_perm hp (List.Perm.refl m0) hnd).symm⟩
  · intro a ha
    subst ha
    have hget : h.maps[a]? = some es := by
      simp only [Heap.mapAt] at hes
      cases hg : h.maps[a]? with
      | none => simp [hg] at hes
      | some x =>
        simp only [hg] at hes
        cases hes
        rfl
    have halt : a < h.maps.length := (List.getElem?_eq_some_iff.mp hget).1
    obtain ⟨m0', hm0', hperm⟩ := Heap.contents_reorder hm0 hget hp
    have hnd0' : m0'.keys.Nodup := (GoMap.keys_perm hperm).nodup_iff.mpr hnd
    have hp' : (h.reorder a p).mapAt (some a) = .ok p := by
      simp [Heap.mapAt, Heap.reorder, List.getElem?_set_self halt]
    obtain ⟨m3, h3, hmw3, hc3⟩ := MergedWith_contents hm0' hnd0' hp'
    refine ⟨m3, h3, hmw3, fun k => ?_⟩
    rw [Get_eq hc3, Get_eq hc1, GoMap.index_foldl_assign_perm hp hperm hesnd hnd k]

theorem MergedWith_agrees_with_And_chain_witness :
    testHeap.WF ∧ 0 < testHeap.objs.length ∧ (∀ a ∈ some 3, a < testHeap.maps.length) ∧
    testHeap.mapAt (some 3) = .ok testEntries ∧
    List.Perm [("key4", some (.inl "value4")), ("key3", some (.inl "value3"))] testEntries ∧
    ∃ m h1 m2 h2, Container.MergedWith 0 (some 3) testHeap = .ok (m, h1) ∧
      andChain 0 [("key4", some (.inl "value4")), ("key3", some (.inl "value3"))] testHeap
        = .ok (m2, h2) ∧
      (∀ k, Container.Get m k h1 = Container.Get m2 k h2) ∧
      (∃ ks ks2, Container.Keys m h1 = .ok ks ∧ Container.Keys m2 h2 = .ok ks2 ∧
        ks.Perm ks2) ∧
      (∀ a, some 3 = some a →
        ∃ m3 h3, Container.MergedWith 0 (some a)
            (testHeap.reorder a
              [("key4", some (.inl "value4")), ("key3", some (.inl "value3"))]) = .ok (m3, h3) ∧
          ∀ k, Container.Get m3 k h3 = Container.Get m k h1) :=
  ⟨testHeap_WF, by decide, by decide, rfl, List.Perm.swap _ _ [],
    MergedWith_agrees_with_And_chain testHeap testHeap_WF 0 (by decide) (some 3) (by decide)
      testEntries [("key4", some (.inl "value4")), ("key3", some (.inl "value3"))] rfl
      (List.Perm.swap _ _ [])⟩

theorem GoMap.index_foldl_project_of_not_mem (m : GoMap α) (ks : List String) (k : String)
    (hk : k ∉ ks) :
    ∀ acc : GoMap α,
      (ks.foldl (fun (acc : GoMap α) k' => acc.assign k' (m.index k').1) acc).index k
        = acc.index k := by
  induction ks with
  | nil => intro acc; rfl
  | cons k0 ks ih =>
    intro acc
    simp only [List.mem_cons, not_or] at hk
    rw [List.foldl_cons, ih hk.2, GoMap.index_assign_ne acc _ hk.1]

theorem GoMap.index_foldl_project_of_mem (m : GoMap α) (ks : List String) (k : String)
    (hk : k ∈ ks) :
    ∀ acc : GoMap α,
      (ks.foldl (fun (acc : GoMap α) k' => acc.assign k' (m.index k').1) acc).index k
        = ((m.index k).1, true) := by
  induction ks with
  | nil => simp at hk
  | cons k0 ks ih =>
    intro acc
    rw [List.foldl_cons]
    by_cases hmem : k ∈ ks
    · exact ih hmem _
    · have h0 : k = k0 := by
        rcases List.mem_cons.mp hk with h | h
        · exact h
        · exact absurd h hmem
      subst h0
      rw [GoMap.index_foldl_project_of_not_mem m ks k hmem, GoMap.index_assign_same]

/-- C24: `WithKeys` and `WithoutKeys` split a non-empty container `c` along a
non-empty list `ks`: a key `k` of `c`, with value `x`, is found in
`c.WithKeys(ks...)` and not in `c.WithoutKeys(ks...)` when `k` is in `ks`, and
found in `c.WithoutKeys(ks...)` and not in `c.WithKeys(ks...)` when it is not; where
it is found its value is `x`. -/
theorem WithKeys_WithoutKeys_split (h : Heap α W) (hwf : h.WF) (c : Nat)
    (hc : c < h.objs.length) (ks : List String) (hks : ks ≠ [])
    (hne : Container.Empty c h = .ok false) (k : String) (x : Value α)
    (hk : Container.Get c k h = .ok (x, true)) :
    ∃ m1 h1 m2 h2, Container.WithKeys c ks h = .ok (m1, h1) ∧
      Container.WithoutKeys c ks h = .ok (m2, h2) ∧
      (k ∈ ks → Container.Get m1 k h1 = .ok (x, true) ∧
        Container.Get m2 k h2 = .ok (none, false)) ∧
      (k ∉ ks → Container.Get m1 k h1 = .ok (none, false) ∧
        Container.Get m2 k h2 = .ok (x, true)) := by
  obtain ⟨m0, hm0, hnd⟩ := hwf.contents_ok hc
  have hm0ne : m0 ≠ [] := by
    intro hnil
    subst hnil
    rw [Empty_eq hm0] at hne
    cases hne
  have hidx : m0.index k = (x, true) := by
    rw [Get_eq hm0] at hk
    exact Except.ok.inj hk
  have hw := WithKeys_eq hm0 hm0ne hks
  have hwo := WithoutKeys_eq hm0 hm0ne hks
  rw [GoMap.foldl_assign_nil m0 hnd] at hwo
  have hn1 := Heap.contents_push_new h
    (ks.foldl (fun (acc : GoMap α) k' => acc.assign k' (m0.index k').1) [])
  have hn2 := Heap.contents_push_new h
    (ks.foldl (fun (acc : GoMap α) k => acc.remove k) m0)
  refine ⟨_, _, _, _, hw, hwo, ?_, ?_⟩
  · intro hmem
    constructor
    · rw [Get_eq hn1, GoMap.index_foldl_project_of_mem m0 ks k hmem, hidx]
    · rw [Get_eq hn2, GoMap.index_foldl_remove_of_mem ks k hmem]
  · intro hmem
    constructor
    · rw [Get_eq hn1, GoMap.index_foldl_project_of_not_mem m0 ks k hmem]
      rfl
    · rw [Get_eq hn2, GoMap.index_foldl_remove_of_not_mem ks k hmem, hidx]

theorem WithKeys_WithoutKeys_split_witness :
    testHeap.WF ∧ 0 < testHeap.objs.length ∧ ["key1", "missing"] ≠ [] ∧
    Container.Empty 0 testHeap = .ok false ∧
    Container.Get 0 "key1" testHeap = .ok (some (.inl "value1"), true) ∧
    ∃ m1 h1 m2 h2, Container.WithKeys 0 ["key1", "missing"] testHeap = .ok (m1, h1) ∧
      Container.WithoutKeys 0 ["key1", "missing"] testHeap = .ok (m2, h2) ∧
      ("key1" ∈ ["key1", "missing"] →
        Container.Get m1 "key1" h1 = .ok (some (.inl "value1"), true) ∧
        Container.Get m2 "key1" h2 = .ok (none, false)) ∧
      ("key1" ∉ ["key1", "missing"] →
        Container.Get m1 "key1" h1 = .ok (none, false) ∧
        Container.Get m2 "key1" h2 = .ok (some (.inl "value1"), true)) :=
  ⟨testHeap_WF, by decide, by decide, rfl, rfl,
    WithKeys_WithoutKeys_split testHeap testHeap_WF 0 (by decide) ["key1", "missing"]
      (by decide) rfl "key1" (some (.inl "value1")) rfl⟩

end metadata
